import Mathlib

/-!
# Verification of `checker.py` (dd-net-checker)

A shallow embedding of the BDD-based reachability checker for networks of
synchronizing automata, together with proofs about it.

Modelling conventions:

* A CUDD BDD node is modelled by a Boolean formula `Bf` over `String`-named
  variables.  CUDD BDDs are canonical, so node equality (`==` on `dd` BDD
  objects) coincides with semantic equivalence of the formulas; we model the
  equality test by the decidable semantic-equivalence check `Bf.equivB`.
  `mgr.true`/`mgr.false` are `Bf.tt`/`Bf.ff`, `&`/`|`/`~` are
  `Bf.and`/`Bf.or`/`Bf.not`, `mgr.quantify (..., forall=False)` is `Bf.exq`,
  and `mgr.let` with a variable-renaming dict is `Bf.rename`.
* The BDD manager's only observable state in this program is the set of
  declared variable names: `mgr.add_var` appends a name, and `mgr.var v`
  raises for an undeclared `v`.  We model the manager as a `List String` of
  declared names, threaded through the encoding functions.  (The source's
  `encode_list_of_labels` calls `add_var` on the global `mgr` rather than on
  its `bdd_mgr` parameter; in every call of the program those are the same
  single manager, which is what the model reflects.)
* Python dicts are modelled by association lists (`List (key × value)`) with
  insertion-order semantics: assigning to an existing key overwrites in
  place, assigning to a fresh key appends (`dictInsert`), lookups raise
  `KeyError` for missing keys (`dictLookup` returning `Option`).
* Fallible Python code (uncaught `KeyError`/`ValueError`, `sys.exit()`) is
  modelled with `Option`/`PyOutcome`.
-/

/-- Lookup in a Python dict modelled as an association list (`d[k]`,
raising `KeyError` as `none`). -/
def dictLookup {α : Type} (k : String) : List (String × α) → Option α
  | [] => none
  | (k', v) :: d => if k' = k then some v else dictLookup k d

/-- Assignment `d[k] = v` into a Python dict: overwrite in place if the key
exists, append otherwise (Python dicts preserve insertion order). -/
def dictInsert {α : Type} (k : String) (v : α) : List (String × α) → List (String × α)
  | [] => [(k, v)]
  | (k', v') :: d => if k' = k then (k, v) :: d else (k', v') :: dictInsert k v d

@[simp] theorem dictLookup_nil {α : Type} (k : String) :
    dictLookup (α := α) k [] = none := rfl

@[simp] theorem dictLookup_cons {α : Type} (k k' : String) (v : α) (d : List (String × α)) :
    dictLookup k ((k', v) :: d) = if k' = k then some v else dictLookup k d := rfl

theorem dictLookup_insert_self {α : Type} (k : String) (v : α) (d : List (String × α)) :
    dictLookup k (dictInsert k v d) = some v := by
  induction d with
  | nil => simp [dictInsert]
  | cons p d ih =>
      obtain ⟨k', v'⟩ := p
      by_cases hk : k' = k <;> simp [dictInsert, hk, ih]

theorem dictLookup_insert_of_ne {α : Type} (k k' : String) (v : α) (d : List (String × α))
    (h : k' ≠ k) : dictLookup k (dictInsert k' v d) = dictLookup k d := by
  induction d with
  | nil => simp [dictInsert, h]
  | cons p d ih =>
      obtain ⟨k'', v''⟩ := p
      by_cases hk : k'' = k'
      · subst hk; simp [dictInsert, h]
      · by_cases hk2 : k'' = k
        · simp [dictInsert, hk, hk2, Ne.symm h]
        · simp [dictInsert, hk, hk2, ih]

theorem dictLookup_mem_values {α : Type} (k : String) (d : List (String × α)) (v : α)
    (h : dictLookup k d = some v) : v ∈ d.map Prod.snd := by
  induction d with
  | nil => simp at h
  | cons p d ih =>
      obtain ⟨k', v'⟩ := p
      by_cases hk : k' = k
      · simp [hk] at h; simp [h]
      · simp [hk] at h; simp [ih h]

theorem dictLookup_mem_keys {α : Type} (k : String) (d : List (String × α)) (v : α)
    (h : dictLookup k d = some v) : k ∈ d.map Prod.fst := by
  induction d with
  | nil => simp at h
  | cons p d ih =>
      obtain ⟨k', v'⟩ := p
      by_cases hk : k' = k
      · simp [hk]
      · simp [hk] at h; simp [ih h]

/-- Boolean formulas over `String`-named variables; the model of CUDD BDD
nodes (up to the semantic equivalence that CUDD's canonical form quotients
by). -/
inductive Bf : Type where
  | tt : Bf
  | ff : Bf
  | var : String → Bf
  | not : Bf → Bf
  | and : Bf → Bf → Bf
  | or : Bf → Bf → Bf
deriving DecidableEq, Repr

namespace Bf

/-- Evaluate a formula under an assignment of the variables. -/
def eval (f : Bf) (a : String → Bool) : Bool :=
  match f with
  | .tt => true
  | .ff => false
  | .var v => a v
  | .not g => !(g.eval a)
  | .and g h => g.eval a && h.eval a
  | .or g h => g.eval a || h.eval a

@[simp] theorem eval_tt (a : String → Bool) : eval .tt a = true := rfl
@[simp] theorem eval_ff (a : String → Bool) : eval .ff a = false := rfl
@[simp] theorem eval_var (v : String) (a : String → Bool) : eval (.var v) a = a v := rfl
@[simp] theorem eval_not (g : Bf) (a : String → Bool) : eval (.not g) a = !(g.eval a) := rfl
@[simp] theorem eval_and (g h : Bf) (a : String → Bool) :
    eval (.and g h) a = (g.eval a && h.eval a) := rfl
@[simp] theorem eval_or (g h : Bf) (a : String → Bool) :
    eval (.or g h) a = (g.eval a || h.eval a) := rfl

/-- The set of variables occurring in a formula. -/
def supp : Bf → Finset String
  | .tt => ∅
  | .ff => ∅
  | .var v => {v}
  | .not g => g.supp
  | .and g h => g.supp ∪ h.supp
  | .or g h => g.supp ∪ h.supp

@[simp] theorem supp_tt : supp .tt = ∅ := rfl
@[simp] theorem supp_ff : supp .ff = ∅ := rfl
@[simp] theorem supp_var (v : String) : supp (.var v) = {v} := rfl
@[simp] theorem supp_not (g : Bf) : supp (.not g) = g.supp := rfl
@[simp] theorem supp_and (g h : Bf) : supp (.and g h) = g.supp ∪ h.supp := rfl
@[simp] theorem supp_or (g h : Bf) : supp (.or g h) = g.supp ∪ h.supp := rfl

/-- Evaluation only depends on the assignment's values on the support. -/
theorem eval_congr (f : Bf) (a b : String → Bool) (h : ∀ v ∈ f.supp, a v = b v) :
    f.eval a = f.eval b := by
  induction f with
  | tt => rfl
  | ff => rfl
  | var v => exact h v (by simp)
  | not g ih => simp [eval, ih (fun v hv => h v (by simpa using hv))]
  | and g g' ih ih' =>
      simp [eval, ih (fun v hv => h v (by simp [supp, hv])),
        ih' (fun v hv => h v (by simp [supp, hv]))]
  | or g g' ih ih' =>
      simp [eval, ih (fun v hv => h v (by simp [supp, hv])),
        ih' (fun v hv => h v (by simp [supp, hv]))]

/-- Substitute the constant `b` for variable `v`. -/
def substC (v : String) (b : Bool) : Bf → Bf
  | .tt => .tt
  | .ff => .ff
  | .var w => if w = v then (if b then .tt else .ff) else .var w
  | .not g => .not (g.substC v b)
  | .and g h => .and (g.substC v b) (h.substC v b)
  | .or g h => .or (g.substC v b) (h.substC v b)

/-- Pointwise update of an assignment. -/
def upd (a : String → Bool) (v : String) (b : Bool) : String → Bool :=
  fun w => if w = v then b else a w

theorem eval_substC (f : Bf) (v : String) (b : Bool) (a : String → Bool) :
    (f.substC v b).eval a = f.eval (upd a v b) := by
  induction f with
  | tt => rfl
  | ff => rfl
  | var w =>
      by_cases hw : w = v <;> cases b <;> simp [substC, upd, hw, eval]
  | not g ih => simp [substC, eval, ih]
  | and g h ih ih' => simp [substC, eval, ih, ih']
  | or g h ih ih' => simp [substC, eval, ih, ih']

theorem supp_substC (f : Bf) (v : String) (b : Bool) : (f.substC v b).supp ⊆ f.supp := by
  induction f with
  | tt => simp [substC]
  | ff => simp [substC]
  | var w =>
      by_cases hw : w = v <;> cases b <;> simp [substC, hw]
  | not g ih => simpa [substC] using ih
  | and g h ih ih' =>
      simp only [substC, supp_and]
      exact Finset.union_subset_union ih ih'
  | or g h ih ih' =>
      simp only [substC, supp_or]
      exact Finset.union_subset_union ih ih'

/-- Existential quantification over a list of variables:
`mgr.quantify (f, vs, forall=False)`. -/
def exq (vs : List String) (f : Bf) : Bf :=
  match vs with
  | [] => f
  | v :: rest => .or ((exq rest f).substC v true) ((exq rest f).substC v false)

theorem supp_exq (vs : List String) (f : Bf) : (exq vs f).supp ⊆ f.supp := by
  induction vs with
  | nil => simp [exq]
  | cons v rest ih =>
      simp only [exq, supp_or]
      exact Finset.union_subset
        ((supp_substC _ _ _).trans ih) ((supp_substC _ _ _).trans ih)

/-- `exq` only weakens a formula: any model of `f` is a model of `∃ vs. f`. -/
theorem eval_exq_of_eval (vs : List String) (f : Bf) (a : String → Bool)
    (h : f.eval a = true) : (exq vs f).eval a = true := by
  induction vs generalizing a with
  | nil => simpa [exq] using h
  | cons v rest ih =>
      have hbase : (exq rest f).eval a = true := ih a h
      have hupd : ((exq rest f).substC v (a v)).eval a = true := by
        rw [eval_substC]
        have hsame : upd a v (a v) = a := by
          funext w; by_cases hw : w = v <;> simp [upd, hw]
        rwa [hsame]
      cases hav : a v with
      | true => simp only [exq, eval_or]; rw [hav] at hupd; simp [hupd]
      | false => simp only [exq, eval_or]; rw [hav] at hupd; simp [hupd]

/-- The variable-to-variable function induced by a renaming dict: variables
missing from the dict are left unchanged (the semantics of `mgr.let` with a
partial renaming). -/
def renameFn (m : List (String × String)) (v : String) : String :=
  match dictLookup v m with
  | some w => w
  | none => v

/-- Simultaneous variable renaming: `mgr.let (m, f)` for a dict `m` mapping
variable names to variable names. -/
def rename (m : List (String × String)) : Bf → Bf
  | .tt => .tt
  | .ff => .ff
  | .var v => .var (renameFn m v)
  | .not g => .not (g.rename m)
  | .and g h => .and (g.rename m) (h.rename m)
  | .or g h => .or (g.rename m) (h.rename m)

theorem eval_rename (m : List (String × String)) (f : Bf) (a : String → Bool) :
    (f.rename m).eval a = f.eval (fun v => a (renameFn m v)) := by
  induction f with
  | tt => rfl
  | ff => rfl
  | var v => rfl
  | not g ih => simp [rename, eval, ih]
  | and g h ih ih' => simp [rename, eval, ih, ih']
  | or g h ih ih' => simp [rename, eval, ih, ih']

theorem supp_rename (m : List (String × String)) (f : Bf) :
    (f.rename m).supp ⊆ f.supp.image (renameFn m) := by
  induction f with
  | tt => simp [rename]
  | ff => simp [rename]
  | var v => simp [rename]
  | not g ih => simpa [rename] using ih
  | and g h ih ih' =>
      simp only [rename, supp_and, Finset.image_union]
      exact Finset.union_subset_union ih ih'
  | or g h ih ih' =>
      simp only [rename, supp_or, Finset.image_union]
      exact Finset.union_subset_union ih ih'

theorem renameFn_eq_of_lookup (m : List (String × String)) (v w : String)
    (h : dictLookup v m = some w) : renameFn m v = w := by
  simp [renameFn, h]

theorem renameFn_eq_of_none (m : List (String × String)) (v : String)
    (h : dictLookup v m = none) : renameFn m v = v := by
  simp [renameFn, h]

/-- `renameFn` sends a variable either to a dict value or to itself. -/
theorem renameFn_mem (m : List (String × String)) (v : String) :
    renameFn m v ∈ m.map Prod.snd ∨ renameFn m v = v := by
  cases h : dictLookup v m with
  | none => exact Or.inr (renameFn_eq_of_none m v h)
  | some w =>
      rw [renameFn_eq_of_lookup m v w h]
      exact Or.inl (dictLookup_mem_values v m w h)

/-- If applying the renaming function twice is the identity on variables,
then applying the renaming twice is the identity on formulas. -/
theorem rename_rename_of_involutive (m : List (String × String))
    (h : ∀ v, renameFn m (renameFn m v) = v) (f : Bf) :
    (f.rename m).rename m = f := by
  induction f with
  | tt => rfl
  | ff => rfl
  | var v => simp [rename, h v]
  | not g ih => simp [rename, ih]
  | and g g' ih ih' => simp [rename, ih, ih']
  | or g g' ih ih' => simp [rename, ih, ih']

/-- Evaluate under the assignment induced by a finite set of true
variables. -/
def evalSet (f : Bf) (s : Finset String) : Bool :=
  f.eval (fun v => decide (v ∈ s))

/-- The set of satisfying assignments restricted to a variable universe
`V`, each assignment represented by its set of true variables. -/
def satSet (V : Finset String) (f : Bf) : Finset (Finset String) :=
  V.powerset.filter (fun s => f.evalSet s = true)

theorem evalSet_filter_eq_eval (f : Bf) (V : Finset String) (a : String → Bool)
    (h : f.supp ⊆ V) :
    f.evalSet (V.filter (fun v => a v = true)) = f.eval a := by
  apply eval_congr
  intro v hv
  have hvV : v ∈ V := h hv
  by_cases hav : a v = true <;> simp [Finset.mem_filter, hvV, hav]

theorem satSet_eq_iff (f g : Bf) (V : Finset String)
    (hf : f.supp ⊆ V) (hg : g.supp ⊆ V) :
    satSet V f = satSet V g ↔ ∀ a, f.eval a = g.eval a := by
  constructor
  · intro h a
    have hmem := Finset.ext_iff.mp h (V.filter (fun v => a v = true))
    have hpow : V.filter (fun v => a v = true) ∈ V.powerset := by
      simp [Finset.filter_subset]
    simp only [satSet, Finset.mem_filter, hpow, true_and] at hmem
    rw [← evalSet_filter_eq_eval f V a hf, ← evalSet_filter_eq_eval g V a hg]
    by_cases hfa : f.evalSet (V.filter (fun v => a v = true)) = true
    · rw [hfa, hmem.mp hfa]
    · have hga : ¬ g.evalSet (V.filter (fun v => a v = true)) = true :=
        fun hc => hfa (hmem.mpr hc)
      rw [Bool.not_eq_true] at hfa hga
      rw [hfa, hga]
  · intro h
    unfold satSet
    apply Finset.filter_congr
    intro s _
    simp [evalSet, h]

/-- The decidable semantic-equivalence check modelling CUDD node equality
(`==`/`!=` on `dd` BDD objects): two canonical BDDs are the same node iff
they denote the same Boolean function. -/
def equivB (f g : Bf) : Bool :=
  decide (satSet (f.supp ∪ g.supp) f = satSet (f.supp ∪ g.supp) g)

theorem equivB_iff (f g : Bf) : equivB f g = true ↔ ∀ a, f.eval a = g.eval a := by
  unfold equivB
  rw [decide_eq_true_iff]
  exact satSet_eq_iff f g _ Finset.subset_union_left Finset.subset_union_right

end Bf

/-!
## Binary label encodings (`encode_list_of_labels`, source lines 56-101)

Python computes, for the label at position `i`,
`raw_encoding = ('0' * needed_vars + bin(i)[2:])[-needed_vars:]`.
We model the digit string `bin(i)[2:]` by the big-endian digit list
`binDigits i` (`bin(0)[2:] = "0"` is `pyBin 0 = [false]`), characters `'1'`
by `true`.  Note the Python quirk: for `needed_vars = 0` the slice `[-0:]`
is `[0:]`, i.e. the *whole* padded string, not the empty string.
-/

/-- Big-endian binary digits of `n` (`[]` for `0`), with structural fuel so
that concrete values reduce in the kernel; `binDigits` instantiates the fuel
sufficiently. -/
def binDigitsAux : Nat → Nat → List Bool
  | _, 0 => []
  | 0, _ + 1 => []
  | fuel + 1, n + 1 => binDigitsAux fuel ((n + 1) / 2) ++ [decide ((n + 1) % 2 = 1)]

/-- Big-endian binary digits of `n`, empty for `0`: the digits of Python's
`bin(n)[2:]` except that `bin(0)[2:] = "0"` (see `pyBin`). -/
def binDigits (n : Nat) : List Bool := binDigitsAux n n

/-- The digits of Python's `bin(n)[2:]` as booleans, including the `0` case. -/
def pyBin (n : Nat) : List Bool := if n = 0 then [false] else binDigits n

theorem binDigitsAux_reverse_getD (fuel : Nat) :
    ∀ n j, n ≤ fuel → (binDigitsAux fuel n).reverse.getD j false = n.testBit j := by
  induction fuel with
  | zero =>
      intro n j hn
      interval_cases n
      simp [binDigitsAux, Nat.zero_testBit]
  | succ fuel ih =>
      intro n j hn
      match n with
      | 0 => simp [binDigitsAux, Nat.zero_testBit]
      | m + 1 =>
          have hdiv : (m + 1) / 2 ≤ fuel := by omega
          match j with
          | 0 =>
              simp only [binDigitsAux, List.reverse_append, List.reverse_cons,
                List.reverse_nil, List.nil_append, List.cons_append, List.getD_cons_zero]
              rw [Nat.testBit_zero]
          | j + 1 =>
              simp only [binDigitsAux, List.reverse_append, List.reverse_cons,
                List.reverse_nil, List.nil_append, List.cons_append, List.getD_cons_succ]
              rw [ih ((m + 1) / 2) j hdiv, Nat.testBit_add_one]

theorem binDigits_reverse_getD (n j : Nat) :
    (binDigits n).reverse.getD j false = n.testBit j :=
  binDigitsAux_reverse_getD n n j le_rfl

theorem binDigitsAux_length_le (fuel : Nat) :
    ∀ n k, n ≤ fuel → n < 2 ^ k → (binDigitsAux fuel n).length ≤ k := by
  induction fuel with
  | zero =>
      intro n k hn _
      interval_cases n
      simp [binDigitsAux]
  | succ fuel ih =>
      intro n k hn hk
      match n with
      | 0 => simp [binDigitsAux]
      | m + 1 =>
          have hkpos : 0 < k := by
            rcases Nat.eq_zero_or_pos k with h0 | h
            · subst h0
              simp at hk
            · exact h
          have hdiv : (m + 1) / 2 ≤ fuel := by omega
          have hdiv2 : (m + 1) / 2 < 2 ^ (k - 1) := by
            have h2 : (2 : Nat) ^ k = 2 ^ (k - 1) * 2 := by
              rw [← Nat.pow_succ]
              congr 1
              omega
            rw [h2] at hk
            exact Nat.div_lt_of_lt_mul (by omega)
          have := ih ((m + 1) / 2) (k - 1) hdiv hdiv2
          simp only [binDigitsAux, List.length_append, List.length_cons, List.length_nil]
          omega

theorem binDigits_length_le (n k : Nat) (h : n < 2 ^ k) : (binDigits n).length ≤ k :=
  binDigitsAux_length_le n n k le_rfl h

theorem binDigitsAux_lt (fuel : Nat) :
    ∀ n, n ≤ fuel → n < 2 ^ (binDigitsAux fuel n).length := by
  induction fuel with
  | zero =>
      intro n hn
      interval_cases n
      simp [binDigitsAux]
  | succ fuel ih =>
      intro n hn
      match n with
      | 0 => simp [binDigitsAux]
      | m + 1 =>
          have hdiv : (m + 1) / 2 ≤ fuel := by omega
          have := ih ((m + 1) / 2) hdiv
          simp only [binDigitsAux, List.length_append, List.length_cons, List.length_nil]
          have h2 : (2 : Nat) ^ ((binDigitsAux fuel ((m + 1) / 2)).length + (0 + 1))
              = 2 ^ (binDigitsAux fuel ((m + 1) / 2)).length * 2 := by
            rw [Nat.pow_succ]
          rw [h2]
          omega

theorem binDigits_lt (n : Nat) : n < 2 ^ (binDigits n).length :=
  binDigitsAux_lt n n le_rfl

theorem binDigits_length_pos (n : Nat) (h : n ≠ 0) : 0 < (binDigits n).length := by
  by_contra hlen
  have h0 := binDigits_lt n
  simp only [Nat.not_lt, Nat.le_zero] at hlen
  rw [hlen] at h0
  simp at h0
  omega

/-- `needed_vars = math.ceil(math.log2(len(label_list)))` (source line 63):
for `n ≥ 1` the ceiling of the base-2 logarithm is the bit length of
`n - 1`. -/
def neededVars (n : Nat) : Nat := (binDigits (n - 1)).length

theorem le_two_pow_neededVars (n : Nat) : n - 1 < 2 ^ neededVars n :=
  binDigits_lt (n - 1)

theorem neededVars_pos (n : Nat) (h : 2 ≤ n) : 0 < neededVars n :=
  binDigits_length_pos (n - 1) (by omega)

theorem neededVars_one : neededVars 1 = 0 := rfl

/-- `raw_encoding = ('0' * needed_vars + bin(i)[2:])[-needed_vars:]` and
`bool_encoding = [bool(int(bit)) for bit in raw_encoding]` (source lines
85-86), digits as booleans.  The slice `[-needed_vars:]` takes the last
`needed_vars` characters when `needed_vars ≥ 1`, but for `needed_vars = 0`
Python's `[-0:]` is `[0:]`: the whole padded string. -/
def boolEncoding (k i : Nat) : List Bool :=
  let padded := List.replicate k false ++ pyBin i
  if k = 0 then padded else padded.drop (padded.length - k)

theorem boolEncoding_zero (i : Nat) : boolEncoding 0 i = pyBin i := by
  simp [boolEncoding]

theorem boolEncoding_eq_replicate_append (k i : Nat) (hk : 1 ≤ k) (hi : i < 2 ^ k) :
    boolEncoding k i = List.replicate (k - (pyBin i).length) false ++ pyBin i := by
  have hlen : (pyBin i).length ≤ k := by
    by_cases h0 : i = 0
    · subst h0; simpa [pyBin] using hk
    · simpa [pyBin, h0] using binDigits_length_le i k hi
  have hk0 : k ≠ 0 := by omega
  simp only [boolEncoding, hk0, if_false, List.length_append, List.length_replicate]
  have harith : k + (pyBin i).length - k = (pyBin i).length := by omega
  rw [harith, List.drop_append_of_le_length (by simpa using hlen), List.drop_replicate]

theorem boolEncoding_length (k i : Nat) (hk : 1 ≤ k) (hi : i < 2 ^ k) :
    (boolEncoding k i).length = k := by
  have hlen : (pyBin i).length ≤ k := by
    by_cases h0 : i = 0
    · subst h0; simpa [pyBin] using hk
    · simpa [pyBin, h0] using binDigits_length_le i k hi
  rw [boolEncoding_eq_replicate_append k i hk hi]
  simp
  omega

theorem pyBin_reverse_getD (i j : Nat) :
    (pyBin i).reverse.getD j false = i.testBit j := by
  by_cases h0 : i = 0
  · subst h0
    match j with
    | 0 => simp [pyBin, Nat.zero_testBit]
    | j + 1 => simp [pyBin, List.getD, Nat.zero_testBit]
  · simpa [pyBin, h0] using binDigits_reverse_getD i j

theorem pyBin_lt (i : Nat) : i < 2 ^ (pyBin i).length := by
  by_cases h0 : i = 0
  · subst h0; simp [pyBin]
  · simpa [pyBin, h0] using binDigits_lt i

/-- Reverse-indexed characterization: the `j`-th digit from the right of the
padded encoding is the `j`-th bit of `i`. -/
theorem boolEncoding_reverse_getD (k i : Nat) (hk : 1 ≤ k) (hi : i < 2 ^ k) (j : Nat) :
    (boolEncoding k i).reverse.getD j false = i.testBit j := by
  rw [boolEncoding_eq_replicate_append k i hk hi]
  rw [List.reverse_append]
  by_cases hj : j < (pyBin i).length
  · rw [List.getD_append _ _ _ _ (by simpa using hj)]
    exact pyBin_reverse_getD i j
  · push_neg at hj
    have hbit : i.testBit j = false :=
      Nat.testBit_lt_two_pow (lt_of_lt_of_le (pyBin_lt i) (Nat.pow_le_pow_right (by omega) hj))
    rw [hbit]
    rw [List.getD_append_right _ _ _ _ (by simpa using hj)]
    simp only [List.getD_eq_getElem?_getD, List.reverse_replicate, List.getElem?_replicate]
    split <;> simp

/-- Forward-indexed characterization: position `j` (0-based from the left,
i.e. variable `prefix + str(j)`) holds bit `k - 1 - j` of `i`; bit 0 of the
encoding (`prefix0`) is the most significant bit. -/
theorem boolEncoding_getD (k i : Nat) (hk : 1 ≤ k) (hi : i < 2 ^ k) (j : Nat) (hj : j < k) :
    (boolEncoding k i).getD j false = i.testBit (k - 1 - j) := by
  have hlen := boolEncoding_length k i hk hi
  have hrev := boolEncoding_reverse_getD k i hk hi (k - 1 - j)
  rw [List.getD_eq_getElem?_getD] at hrev ⊢
  rw [List.getElem?_reverse (by simp [hlen]; omega)] at hrev
  rw [show (boolEncoding k i).length - 1 - (k - 1 - j) = j from by omega] at hrev
  exact hrev

/-!
## `encode_list_of_labels` (source lines 56-101)
-/

/-- Result of `encode_list_of_labels`: the post-call manager state plus the
returned `bdd_var_names`, `encodings_dict` and (if requested, otherwise
empty) `nonprimed_to_primed_dict`. -/
structure EncodeResult where
  mgr : List String
  bdd_var_names : List String
  encodings_dict : List (String × Bf)
  nonprimed_to_primed_dict : List (String × String)
deriving DecidableEq, Repr

/-- One iteration of the variable-allocation loop (source lines 70-80):
declare `prefix + str(i)` (and, when `generate_primed`, also
`'primed' + prefix + str(i)` together with the two dict entries).
The accumulator is `(manager, bdd_var_names, nonprimed_to_primed_dict)`. -/
def addVarStep (pfx : String) (generate_primed : Bool)
    (acc : List String × List String × List (String × String)) (i : Nat) :
    List String × List String × List (String × String) :=
  let newVar := pfx ++ toString i
  let mgr1 := acc.1 ++ [newVar]
  let names1 := acc.2.1 ++ [newVar]
  if generate_primed then
    let primedVar := "primed" ++ newVar
    (mgr1 ++ [primedVar], names1,
      dictInsert primedVar newVar (dictInsert newVar primedVar acc.2.2))
  else
    (mgr1, names1, acc.2.2)

/-- The inner conjunction loop building one label's BDD encoding from its
bit string (source lines 88-94).  `bdd_mgr.var` on an undeclared variable
raises, modelled by the membership test against the manager state. -/
def labelEncoding (mgrV : List String) (pfx : String) (bits : List Bool) : Option Bf :=
  bits.enum.foldlM
    (fun acc jb =>
      if pfx ++ toString jb.1 ∈ mgrV then
        some (if jb.2 then acc.and (Bf.var (pfx ++ toString jb.1))
              else acc.and (Bf.var (pfx ++ toString jb.1)).not)
      else none)
    Bf.tt

/-- `encode_list_of_labels(label_list, bdd_mgr, variable_prefix,
generate_primed)` (source lines 56-101).  Returns `none` when the Python
call raises: `math.log2(0)` on an empty list, or `bdd_mgr.var` on an
undeclared variable (which happens exactly in the `needed_vars = 0` case,
see `encode_single_label_raises`). -/
def encode_list_of_labels (label_list : List String) (mgr : List String)
    (pfx : String) (generate_primed : Bool) : Option EncodeResult :=
  if label_list.length = 0 then none
  else
    let needed := neededVars label_list.length
    let st := (List.range needed).foldl (addVarStep pfx generate_primed) (mgr, [], [])
    match label_list.enum.foldlM
        (fun d il => (labelEncoding st.1 pfx (boolEncoding needed il.1)).map
            (fun e => dictInsert il.2 e d)) [] with
    | none => none
    | some encs => some ⟨st.1, st.2.1, encs, st.2.2⟩

/-! ### Characterization of the variable-allocation loop -/

theorem addVars_names (pfx : String) (gp : Bool) (n : Nat)
    (acc : List String × List String × List (String × String)) :
    ((List.range n).foldl (addVarStep pfx gp) acc).2.1
      = acc.2.1 ++ (List.range n).map (fun i => pfx ++ toString i) := by
  induction n with
  | zero => simp
  | succ n ih =>
      rw [List.range_succ, List.foldl_append, List.foldl_cons, List.foldl_nil,
        List.map_append]
      cases gp <;> simp [addVarStep, ih]

theorem addVarStep_mgr_sub (pfx : String) (gp : Bool)
    (acc : List String × List String × List (String × String)) (i : Nat) :
    acc.1 ⊆ (addVarStep pfx gp acc i).1 := by
  cases gp <;> simp [addVarStep]

theorem addVars_mgr_sub (pfx : String) (gp : Bool) (n : Nat)
    (acc : List String × List String × List (String × String)) :
    acc.1 ⊆ ((List.range n).foldl (addVarStep pfx gp) acc).1 := by
  induction n with
  | zero => simp
  | succ n ih =>
      rw [List.range_succ, List.foldl_append, List.foldl_cons, List.foldl_nil]
      exact ih.trans (addVarStep_mgr_sub pfx gp _ n)

theorem addVars_mem_mgr (pfx : String) (gp : Bool) (n : Nat)
    (acc : List String × List String × List (String × String)) (i : Nat) (hi : i < n) :
    pfx ++ toString i ∈ ((List.range n).foldl (addVarStep pfx gp) acc).1 := by
  induction n with
  | zero => omega
  | succ n ih =>
      rw [List.range_succ, List.foldl_append, List.foldl_cons, List.foldl_nil]
      by_cases hin : i < n
      · exact addVarStep_mgr_sub pfx gp _ n (ih hin)
      · have : i = n := by omega
        subst this
        cases gp <;> simp [addVarStep]

theorem addVars_np2p_lookup (pfx : String) (mgr : List String) (n : Nat)
    (hvv : ∀ i j, i < n → j < n → pfx ++ toString i = pfx ++ toString j → i = j)
    (hvp : ∀ i j, i < n → j < n → pfx ++ toString i ≠ "primed" ++ (pfx ++ toString j))
    (hpp : ∀ i j, i < n → j < n →
      "primed" ++ (pfx ++ toString i) = "primed" ++ (pfx ++ toString j) → i = j)
    (j : Nat) (hj : j < n) :
    dictLookup (pfx ++ toString j)
        ((List.range n).foldl (addVarStep pfx true) (mgr, [], [])).2.2
      = some ("primed" ++ (pfx ++ toString j)) ∧
    dictLookup ("primed" ++ (pfx ++ toString j))
        ((List.range n).foldl (addVarStep pfx true) (mgr, [], [])).2.2
      = some (pfx ++ toString j) := by
  induction n with
  | zero => omega
  | succ n ih =>
      rw [List.range_succ, List.foldl_append, List.foldl_cons, List.foldl_nil]
      have hstep : (addVarStep pfx true ((List.range n).foldl (addVarStep pfx true)
          (mgr, [], [])) n).2.2
          = dictInsert ("primed" ++ (pfx ++ toString n)) (pfx ++ toString n)
              (dictInsert (pfx ++ toString n) ("primed" ++ (pfx ++ toString n))
                ((List.range n).foldl (addVarStep pfx true) (mgr, [], [])).2.2) := by
        simp [addVarStep]
      rw [hstep]
      by_cases hjn : j < n
      · have ihj := ih (fun i j hi hj => hvv i j (by omega) (by omega))
          (fun i j hi hj => hvp i j (by omega) (by omega))
          (fun i j hi hj => hpp i j (by omega) (by omega)) hjn
        constructor
        · rw [dictLookup_insert_of_ne _ _ _ _
            (fun he => hvp j n hj (by omega) he.symm)]
          rw [dictLookup_insert_of_ne _ _ _ _
            (fun he => by have := hvv n j (by omega) (by omega) he; omega)]
          exact ihj.1
        · rw [dictLookup_insert_of_ne _ _ _ _
            (fun he => by have := hpp n j (by omega) (by omega) he; omega)]
          rw [dictLookup_insert_of_ne _ _ _ _
            (fun he => hvp n j (by omega) (by omega) he)]
          exact ihj.2
      · have hjeq : j = n := by omega
        subst hjeq
        constructor
        · rw [dictLookup_insert_of_ne _ _ _ _
            (fun he => hvp j j hj hj he.symm)]
          exact dictLookup_insert_self _ _ _
        · exact dictLookup_insert_self _ _ _

/-! ### Characterization of the per-label conjunction loop -/

/-- The syntactic result of the conjunction loop of `labelEncoding` starting
from accumulator `acc` at bit position `s`. -/
def litFold (pfx : String) (acc : Bf) (s : Nat) : List Bool → Bf
  | [] => acc
  | b :: rest =>
      litFold pfx
        (if b then acc.and (Bf.var (pfx ++ toString s))
         else acc.and (Bf.var (pfx ++ toString s)).not)
        (s + 1) rest

theorem labelEncoding_fold_eq (mgrV : List String) (pfx : String) (bits : List Bool) :
    ∀ (s : Nat) (acc e : Bf),
      ((bits.enumFrom s).foldlM (fun acc jb =>
          if pfx ++ toString jb.1 ∈ mgrV then
            some (if jb.2 then acc.and (Bf.var (pfx ++ toString jb.1))
                  else acc.and (Bf.var (pfx ++ toString jb.1)).not)
          else none) acc) = some e →
      e = litFold pfx acc s bits := by
  induction bits with
  | nil =>
      intro s acc e h
      simp [List.enumFrom] at h
      simp [litFold, h]
  | cons b rest ih =>
      intro s acc e h
      rw [show (b :: rest).enumFrom s = (s, b) :: rest.enumFrom (s + 1) from rfl,
        List.foldlM_cons] at h
      by_cases hmem : pfx ++ toString s ∈ mgrV
      · rw [if_pos hmem] at h
        have h' : ((rest.enumFrom (s + 1)).foldlM (fun acc jb =>
            if pfx ++ toString jb.1 ∈ mgrV then
              some (if jb.2 then acc.and (Bf.var (pfx ++ toString jb.1))
                    else acc.and (Bf.var (pfx ++ toString jb.1)).not)
            else none)
            (if b then acc.and (Bf.var (pfx ++ toString s))
             else acc.and (Bf.var (pfx ++ toString s)).not)) = some e := h
        rw [litFold]
        exact ih (s + 1) _ e h'
      · rw [if_neg hmem] at h
        simp at h

theorem labelEncoding_eq (mgrV : List String) (pfx : String) (bits : List Bool) (e : Bf)
    (h : labelEncoding mgrV pfx bits = some e) : e = litFold pfx Bf.tt 0 bits := by
  exact labelEncoding_fold_eq mgrV pfx bits 0 Bf.tt e h

theorem litFold_eval (pfx : String) (bits : List Bool) :
    ∀ (acc : Bf) (s : Nat) (a : String → Bool),
      (litFold pfx acc s bits).eval a
        = (acc.eval a &&
            (List.range bits.length).all
              (fun j => a (pfx ++ toString (s + j)) == bits.getD j false)) := by
  induction bits with
  | nil => intro acc s a; simp [litFold]
  | cons b rest ih =>
      intro acc s a
      rw [litFold]
      rw [ih]
      rw [List.length_cons, List.range_succ_eq_map]
      rw [List.all_cons, List.all_map]
      have hshift : ((fun j => a (pfx ++ toString (s + j)) == (b :: rest).getD j false)
            ∘ Nat.succ)
          = fun j => a (pfx ++ toString ((s + 1) + j)) == rest.getD j false := by
        funext j
        simp only [Function.comp]
        rw [List.getD_cons_succ]
        have : s + (j + 1) = (s + 1) + j := by omega
        rw [this]
      rw [hshift]
      cases b <;> simp [Bool.and_assoc, Bool.and_comm, Bool.and_left_comm]

theorem litFold_supp (pfx : String) (bits : List Bool) :
    ∀ (acc : Bf) (s : Nat) (v : String), v ∈ (litFold pfx acc s bits).supp →
      v ∈ acc.supp ∨ ∃ j, j < bits.length ∧ v = pfx ++ toString (s + j) := by
  induction bits with
  | nil =>
      intro acc s v hv
      exact Or.inl (by simpa [litFold] using hv)
  | cons b rest ih =>
      intro acc s v hv
      rw [litFold] at hv
      rcases ih _ (s + 1) v hv with hacc | ⟨j, hj, hveq⟩
      · cases b with
        | true =>
            simp at hacc
            rcases hacc with h1 | h2
            · exact Or.inl h1
            · exact Or.inr ⟨0, by simp, by simpa using h2⟩
        | false =>
            simp at hacc
            rcases hacc with h1 | h2
            · exact Or.inl h1
            · exact Or.inr ⟨0, by simp, by simpa using h2⟩
      · refine Or.inr ⟨j + 1, by simpa using hj, ?_⟩
        rw [hveq]
        rw [show (s + 1) + j = s + (j + 1) from by omega]

theorem labelEncoding_eval (mgrV : List String) (pfx : String) (bits : List Bool) (e : Bf)
    (h : labelEncoding mgrV pfx bits = some e) (a : String → Bool) :
    e.eval a = true ↔ ∀ j, j < bits.length → a (pfx ++ toString j) = bits.getD j false := by
  rw [labelEncoding_eq mgrV pfx bits e h, litFold_eval]
  simp [List.all_eq_true]

theorem labelEncoding_supp (mgrV : List String) (pfx : String) (bits : List Bool) (e : Bf)
    (h : labelEncoding mgrV pfx bits = some e) (v : String) (hv : v ∈ e.supp) :
    ∃ j, j < bits.length ∧ v = pfx ++ toString j := by
  rw [labelEncoding_eq mgrV pfx bits e h] at hv
  rcases litFold_supp pfx bits Bf.tt 0 v hv with h0 | ⟨j, hj, hveq⟩
  · simp at h0
  · exact ⟨j, hj, by simpa using hveq⟩

/-! ### Characterization of the label-to-encoding dict loop -/

theorem encodings_fold_lookup (mgrV : List String) (pfx : String) (k : Nat)
    (labels : List String) :
    ∀ (s : Nat) (d₀ d' : List (String × Bf)),
      ((labels.enumFrom s).foldlM (fun d il =>
          (labelEncoding mgrV pfx (boolEncoding k il.1)).map (fun e => dictInsert il.2 e d)) d₀)
        = some d' →
      (∀ l, l ∉ labels → dictLookup l d' = dictLookup l d₀) ∧
      (labels.Nodup → ∀ i (hi : i < labels.length), ∃ e,
          labelEncoding mgrV pfx (boolEncoding k (s + i)) = some e ∧
          dictLookup (labels.get ⟨i, hi⟩) d' = some e) := by
  induction labels with
  | nil =>
      intro s d₀ d' h
      have hd : d₀ = d' := by simpa [List.enumFrom] using h
      constructor
      · intro l _
        rw [hd]
      · intro _ i hi
        simp at hi
  | cons l rest ih =>
      intro s d₀ d' h
      rw [show (l :: rest).enumFrom s = (s, l) :: rest.enumFrom (s + 1) from rfl,
        List.foldlM_cons] at h
      cases he : labelEncoding mgrV pfx (boolEncoding k s) with
      | none =>
          rw [he] at h
          simp at h
      | some e₀ =>
          rw [he] at h
          have h' : ((rest.enumFrom (s + 1)).foldlM (fun d il =>
              (labelEncoding mgrV pfx (boolEncoding k il.1)).map
                (fun e => dictInsert il.2 e d)) (dictInsert l e₀ d₀)) = some d' := h
          obtain ⟨ihPres, ihIdx⟩ := ih (s + 1) (dictInsert l e₀ d₀) d' h'
          constructor
          · intro l' hl'
            have hl1 : l ≠ l' := fun he2 => hl' (by simp [he2])
            have hl2 : l' ∉ rest := fun hm => hl' (by simp [hm])
            rw [ihPres l' hl2, dictLookup_insert_of_ne _ _ _ _ hl1]
          · intro hnodup i hi
            have hln : l ∉ rest := (List.nodup_cons.mp hnodup).1
            have hrest : rest.Nodup := (List.nodup_cons.mp hnodup).2
            match i with
            | 0 =>
                refine ⟨e₀, by simpa using he, ?_⟩
                have hpres : dictLookup l d' = dictLookup l (dictInsert l e₀ d₀) :=
                  ihPres l hln
                rw [show (l :: rest).get ⟨0, hi⟩ = l from rfl, hpres, dictLookup_insert_self]
            | Nat.succ i' =>
                have hi' : i' < rest.length := by simpa using hi
                obtain ⟨e, he1, he2⟩ := ihIdx hrest i' hi'
                refine ⟨e, ?_, ?_⟩
                · rw [show s + (i' + 1) = (s + 1) + i' from by omega]
                  exact he1
                · rw [show (l :: rest).get ⟨i' + 1, hi⟩ = rest.get ⟨i', hi'⟩ from rfl]
                  exact he2

/-! ### Top-level characterization of `encode_list_of_labels` -/

theorem encode_list_of_labels_spec (label_list : List String) (mgr : List String)
    (pfx : String) (gp : Bool) (res : EncodeResult)
    (h : encode_list_of_labels label_list mgr pfx gp = some res) :
    res.mgr = ((List.range (neededVars label_list.length)).foldl
        (addVarStep pfx gp) (mgr, [], [])).1 ∧
    res.bdd_var_names = (List.range (neededVars label_list.length)).map
        (fun i => pfx ++ toString i) ∧
    res.nonprimed_to_primed_dict = ((List.range (neededVars label_list.length)).foldl
        (addVarStep pfx gp) (mgr, [], [])).2.2 ∧
    (∀ l, l ∉ label_list → dictLookup l res.encodings_dict = none) ∧
    (label_list.Nodup → ∀ i (hi : i < label_list.length), ∃ e,
        labelEncoding res.mgr pfx (boolEncoding (neededVars label_list.length) i) = some e ∧
        dictLookup (label_list.get ⟨i, hi⟩) res.encodings_dict = some e) := by
  unfold encode_list_of_labels at h
  by_cases hlen : label_list.length = 0
  · rw [if_pos hlen] at h
    simp at h
  · rw [if_neg hlen] at h
    simp only [] at h
    set st := (List.range (neededVars label_list.length)).foldl
      (addVarStep pfx gp) (mgr, [], []) with hst
    cases hfold : label_list.enum.foldlM
        (fun d il => (labelEncoding st.1 pfx
          (boolEncoding (neededVars label_list.length) il.1)).map
            (fun e => dictInsert il.2 e d)) [] with
    | none =>
        rw [hfold] at h
        simp at h
    | some encs =>
        rw [hfold] at h
        simp only [Option.some.injEq] at h
        subst h
        obtain ⟨hpres, hidx⟩ := encodings_fold_lookup st.1 pfx
          (neededVars label_list.length) label_list 0 [] encs hfold
        refine ⟨rfl, ?_, rfl, ?_, ?_⟩
        · exact addVars_names pfx gp (neededVars label_list.length) (mgr, [], [])
        · intro l hl
          rw [hpres l hl]
          rfl
        · intro hnodup i hi
          obtain ⟨e, he1, he2⟩ := hidx hnodup i hi
          exact ⟨e, by simpa using he1, he2⟩

/-- An assignment realizing a given bit pattern on a duplicate-free list of
variables. -/
def patternAssign (vars : List String) (pat : Nat → Bool) : String → Bool :=
  fun v => if v ∈ vars then pat (vars.indexOf v) else false

theorem patternAssign_get (vars : List String) (hnd : vars.Nodup) (pat : Nat → Bool)
    (j : Nat) (hj : j < vars.length) :
    patternAssign vars pat (vars.get ⟨j, hj⟩) = pat j := by
  unfold patternAssign
  rw [if_pos (vars.get_mem j hj)]
  rw [show vars.get ⟨j, hj⟩ = vars[j] from rfl, List.indexOf_getElem hnd]

theorem patternAssign_not_mem (vars : List String) (pat : Nat → Bool) (v : String)
    (hv : v ∉ vars) : patternAssign vars pat v = false := by
  simp [patternAssign, hv]

/-- The minterm facts for each label encoded by `encode_list_of_labels`
(with at least two labels): lookup succeeds, the value evaluates to true
exactly on the assignments matching the big-endian bit pattern of the
label's index, and its support lies among the allocated variables. -/
theorem encode_minterm_eval (label_list : List String) (mgr : List String)
    (pfx : String) (gp : Bool) (res : EncodeResult)
    (h : encode_list_of_labels label_list mgr pfx gp = some res)
    (hnodup : label_list.Nodup) (h2 : 2 ≤ label_list.length)
    (i : Nat) (hi : i < label_list.length) :
    ∃ e, dictLookup (label_list.get ⟨i, hi⟩) res.encodings_dict = some e ∧
      (∀ a, e.eval a = true ↔ ∀ j, j < neededVars label_list.length →
          a (pfx ++ toString j) = i.testBit (neededVars label_list.length - 1 - j)) ∧
      (∀ v ∈ e.supp, ∃ j, j < neededVars label_list.length ∧ v = pfx ++ toString j) := by
  obtain ⟨hmgr, hnames, hnp, hnone, hidx⟩ :=
    encode_list_of_labels_spec label_list mgr pfx gp res h
  obtain ⟨e, he1, he2⟩ := hidx hnodup i hi
  have hk1 : 1 ≤ neededVars label_list.length := neededVars_pos _ h2
  have hik : i < 2 ^ neededVars label_list.length := by
    have := le_two_pow_neededVars label_list.length
    omega
  have hblen : (boolEncoding (neededVars label_list.length) i).length
      = neededVars label_list.length := boolEncoding_length _ _ hk1 hik
  refine ⟨e, he2, ?_, ?_⟩
  · intro a
    rw [labelEncoding_eval _ _ _ _ he1 a, hblen]
    constructor
    · intro hall j hj
      rw [← boolEncoding_getD _ _ hk1 hik j hj]
      exact hall j hj
    · intro hall j hj
      rw [boolEncoding_getD _ _ hk1 hik j hj]
      exact hall j hj
  · intro v hv
    have := labelEncoding_supp _ _ _ _ he1 v hv
    rwa [hblen] at this

theorem labelEncoding_cons_mem (mgrV : List String) (pfx : String) (b : Bool)
    (rest : List Bool) (e : Bf) (h : labelEncoding mgrV pfx (b :: rest) = some e) :
    pfx ++ toString 0 ∈ mgrV := by
  by_contra hmem
  unfold labelEncoding at h
  rw [show (b :: rest).enum = (0, b) :: rest.enumFrom 1 from rfl, List.foldlM_cons] at h
  rw [if_neg hmem] at h
  simp at h

/-- C5: for a one-element label list, `needed_vars = 0`, but Python's
`[-0:]` slice makes `raw_encoding` the whole string `bin(0)[2:] = "0"`, so
the encoding loop runs once and calls `bdd_mgr.var(prefix + '0')` on a
variable that was never allocated; the call raises instead of producing the
constant-true BDD the spec describes. -/
theorem encode_single_label_raises (l : String) (mgr : List String) (pfx : String)
    (gp : Bool) (hmem : pfx ++ "0" ∉ mgr) :
    encode_list_of_labels [l] mgr pfx gp = none := by
  cases hres : encode_list_of_labels [l] mgr pfx gp with
  | none => rfl
  | some res =>
      exfalso
      obtain ⟨hmgr, -, -, -, hidx⟩ := encode_list_of_labels_spec [l] mgr pfx gp res hres
      obtain ⟨e, he1, -⟩ := hidx (by simp) 0 (by simp)
      rw [hmgr] at he1
      have hb : boolEncoding (neededVars [l].length) 0 = false :: [] := rfl
      rw [hb] at he1
      have hin := labelEncoding_cons_mem _ pfx false [] e he1
      have hfold : ((List.range (neededVars [l].length)).foldl (addVarStep pfx gp)
          (mgr, [], [])).1 = mgr := rfl
      rw [hfold] at hin
      exact hmem hin

/-- Witness for `encode_single_label_raises`. -/
theorem encode_single_label_raises_witness :
    ("act" ++ "0") ∉ ([] : List String) ∧
    encode_list_of_labels ["a"] [] "act" false = none :=
  ⟨by decide, encode_single_label_raises "a" [] "act" false (by decide)⟩

theorem encode_var_names_length (label_list : List String) (mgr : List String)
    (pfx : String) (gp : Bool) (res : EncodeResult)
    (h : encode_list_of_labels label_list mgr pfx gp = some res) :
    res.bdd_var_names.length = neededVars label_list.length := by
  obtain ⟨-, hnames, -, -, -⟩ := encode_list_of_labels_spec label_list mgr pfx gp res h
  rw [hnames]
  simp

theorem encode_var_names_get (label_list : List String) (mgr : List String)
    (pfx : String) (gp : Bool) (res : EncodeResult)
    (h : encode_list_of_labels label_list mgr pfx gp = some res)
    (j : Nat) (hj : j < res.bdd_var_names.length) :
    res.bdd_var_names.get ⟨j, hj⟩ = pfx ++ toString j := by
  obtain ⟨-, hnames, -, -, -⟩ := encode_list_of_labels_spec label_list mgr pfx gp res h
  have hlen := encode_var_names_length label_list mgr pfx gp res h
  have hj' : j < neededVars label_list.length := by omega
  rw [show res.bdd_var_names.get ⟨j, hj⟩ = res.bdd_var_names[j] from rfl]
  rw [List.getElem_of_eq hnames hj, List.getElem_map, List.getElem_range]

/-- C6: for a duplicate-free label list with at least two labels, the
label-to-BDD mapping of `encode_list_of_labels` is injective (two labels
with semantically equal BDDs coincide — CUDD node equality is semantic
equivalence), and the BDD of the label at index `i` is the minterm over the
`k` allocated variables whose bits form the `k`-bit binary representation
of `i` left-padded with zeros, with bit 0 (variable `prefix0`) the most
significant bit. -/
theorem encode_injective_and_minterm (label_list : List String) (mgr : List String)
    (pfx : String) (gp : Bool) (res : EncodeResult)
    (h : encode_list_of_labels label_list mgr pfx gp = some res)
    (hnodup : label_list.Nodup) (h2 : 2 ≤ label_list.length)
    (hvars : res.bdd_var_names.Nodup) :
    (∀ l1 l2 e1 e2, l1 ∈ label_list → l2 ∈ label_list →
        dictLookup l1 res.encodings_dict = some e1 →
        dictLookup l2 res.encodings_dict = some e2 →
        (∀ a, e1.eval a = e2.eval a) → l1 = l2) ∧
    (∀ i, ∀ hi : i < label_list.length, ∃ e,
        dictLookup (label_list.get ⟨i, hi⟩) res.encodings_dict = some e ∧
        ∀ a, e.eval a = true ↔
          ∀ j, ∀ hj : j < res.bdd_var_names.length,
            a (res.bdd_var_names.get ⟨j, hj⟩)
              = i.testBit (res.bdd_var_names.length - 1 - j)) := by
  have hlen := encode_var_names_length label_list mgr pfx gp res h
  have hk1 : 1 ≤ neededVars label_list.length := neededVars_pos _ h2
  have hminterm : ∀ i, ∀ hi : i < label_list.length, ∃ e,
      dictLookup (label_list.get ⟨i, hi⟩) res.encodings_dict = some e ∧
      ∀ a, e.eval a = true ↔
        ∀ j, ∀ hj : j < res.bdd_var_names.length,
          a (res.bdd_var_names.get ⟨j, hj⟩)
            = i.testBit (res.bdd_var_names.length - 1 - j) := by
    intro i hi
    obtain ⟨e, he1, he2, -⟩ := encode_minterm_eval label_list mgr pfx gp res h hnodup h2 i hi
    refine ⟨e, he1, ?_⟩
    intro a
    rw [he2 a]
    constructor
    · intro hall j hj
      rw [encode_var_names_get label_list mgr pfx gp res h j hj, hlen]
      exact hall j (by omega)
    · intro hall j hj
      have hj' : j < res.bdd_var_names.length := by omega
      have := hall j hj'
      rw [encode_var_names_get label_list mgr pfx gp res h j hj', hlen] at this
      exact this
  refine ⟨?_, hminterm⟩
  intro l1 l2 e1 e2 hl1 hl2 hlook1 hlook2 heq
  obtain ⟨⟨i1, hi1⟩, hg1⟩ := List.mem_iff_get.mp hl1
  obtain ⟨⟨i2, hi2⟩, hg2⟩ := List.mem_iff_get.mp hl2
  obtain ⟨e1', hlook1', hiff1⟩ := hminterm i1 hi1
  obtain ⟨e2', hlook2', hiff2⟩ := hminterm i2 hi2
  rw [hg1, hlook1] at hlook1'
  rw [hg2, hlook2] at hlook2'
  obtain rfl : e1 = e1' := (Option.some.injEq _ _).mp hlook1'
  obtain rfl : e2 = e2' := (Option.some.injEq _ _).mp hlook2'
  set k := res.bdd_var_names.length with hkdef
  set a := patternAssign res.bdd_var_names (fun j => i1.testBit (k - 1 - j)) with hadef
  have he1a : e1.eval a = true := by
    rw [hiff1 a]
    intro j hj
    rw [hadef, patternAssign_get res.bdd_var_names hvars _ j hj]
  have he2a : e2.eval a = true := by
    rw [← heq a]
    exact he1a
  have hbits : ∀ j, ∀ hj : j < k,
      i1.testBit (k - 1 - j) = i2.testBit (k - 1 - j) := by
    intro j hj
    have := (hiff2 a).mp he2a j hj
    rw [hadef, patternAssign_get res.bdd_var_names hvars _ j hj] at this
    exact this.symm ▸ rfl
  have hi1k : i1 < 2 ^ k := by
    rw [hlen]
    have := le_two_pow_neededVars label_list.length
    omega
  have hi2k : i2 < 2 ^ k := by
    rw [hlen]
    have := le_two_pow_neededVars label_list.length
    omega
  have hieq : i1 = i2 := by
    apply Nat.eq_of_testBit_eq
    intro b
    by_cases hb : b < k
    · have := hbits (k - 1 - b) (by omega)
      rwa [show k - 1 - (k - 1 - b) = b from by omega] at this
    · rw [Nat.testBit_lt_two_pow
          (lt_of_lt_of_le hi1k (Nat.pow_le_pow_right (by omega) (by omega))),
        Nat.testBit_lt_two_pow
          (lt_of_lt_of_le hi2k (Nat.pow_le_pow_right (by omega) (by omega)))]
  rw [← hg1, ← hg2]
  congr 1
  exact Fin.ext hieq

/-- Witness for `encode_injective_and_minterm`. -/
theorem encode_injective_and_minterm_witness :
    encode_list_of_labels ["x", "y"] [] "v" false
      = some ⟨["v0"], ["v0"],
          [("x", Bf.tt.and (Bf.var "v0").not), ("y", Bf.tt.and (Bf.var "v0"))], []⟩ ∧
    (["x", "y"] : List String).Nodup ∧ 2 ≤ (["x", "y"] : List String).length ∧
    (["v0"] : List String).Nodup ∧
    ((∀ l1 l2 e1 e2, l1 ∈ (["x", "y"] : List String) → l2 ∈ (["x", "y"] : List String) →
        dictLookup l1 [("x", Bf.tt.and (Bf.var "v0").not),
          ("y", Bf.tt.and (Bf.var "v0"))] = some e1 →
        dictLookup l2 [("x", Bf.tt.and (Bf.var "v0").not),
          ("y", Bf.tt.and (Bf.var "v0"))] = some e2 →
        (∀ a, e1.eval a = e2.eval a) → l1 = l2) ∧
      (∀ i, ∀ hi : i < (["x", "y"] : List String).length, ∃ e,
        dictLookup ((["x", "y"] : List String).get ⟨i, hi⟩)
            [("x", Bf.tt.and (Bf.var "v0").not), ("y", Bf.tt.and (Bf.var "v0"))] = some e ∧
        ∀ a, e.eval a = true ↔
          ∀ j, ∀ hj : j < (["v0"] : List String).length,
            a ((["v0"] : List String).get ⟨j, hj⟩)
              = i.testBit ((["v0"] : List String).length - 1 - j))) :=
  ⟨by decide, by decide, by decide, by decide,
    encode_injective_and_minterm ["x", "y"] [] "v" false
      ⟨["v0"], ["v0"], [("x", Bf.tt.and (Bf.var "v0").not), ("y", Bf.tt.and (Bf.var "v0"))], []⟩
      (by decide) (by decide) (by decide) (by decide)⟩

theorem addVars_np2p_keys (pfx : String) (mgr : List String) (n : Nat) (w : String)
    (hw : ∀ i, i < n → w ≠ pfx ++ toString i ∧ w ≠ "primed" ++ (pfx ++ toString i)) :
    dictLookup w ((List.range n).foldl (addVarStep pfx true) (mgr, [], [])).2.2 = none := by
  induction n with
  | zero => simp
  | succ n ih =>
      rw [List.range_succ, List.foldl_append, List.foldl_cons, List.foldl_nil]
      have hstep : (addVarStep pfx true ((List.range n).foldl (addVarStep pfx true)
          (mgr, [], [])) n).2.2
          = dictInsert ("primed" ++ (pfx ++ toString n)) (pfx ++ toString n)
              (dictInsert (pfx ++ toString n) ("primed" ++ (pfx ++ toString n))
                ((List.range n).foldl (addVarStep pfx true) (mgr, [], [])).2.2) := by
        simp [addVarStep]
      rw [hstep]
      rw [dictLookup_insert_of_ne _ _ _ _ (Ne.symm (hw n (by omega)).2)]
      rw [dictLookup_insert_of_ne _ _ _ _ (Ne.symm (hw n (by omega)).1)]
      exact ih (fun i hi => hw i (by omega))

theorem names_nodup_facts (pfx : String) (k : Nat)
    (h : ((List.range k).map (fun i => pfx ++ toString i)
        ++ ((List.range k).map (fun i => pfx ++ toString i)).map
            (fun v => "primed" ++ v)).Nodup) :
    (∀ i j, i < k → j < k → pfx ++ toString i = pfx ++ toString j → i = j) ∧
    (∀ i j, i < k → j < k → pfx ++ toString i ≠ "primed" ++ (pfx ++ toString j)) ∧
    (∀ i j, i < k → j < k →
      "primed" ++ (pfx ++ toString i) = "primed" ++ (pfx ++ toString j) → i = j) := by
  have h1 : ((List.range k).map (fun i => pfx ++ toString i)).Nodup :=
    h.of_append_left
  have h2 : (((List.range k).map (fun i => pfx ++ toString i)).map
      (fun v => "primed" ++ v)).Nodup := h.of_append_right
  have hdisj := List.disjoint_of_nodup_append h
  refine ⟨?_, ?_, ?_⟩
  · intro i j hi hj he
    have hi2 : i < ((List.range k).map (fun i => pfx ++ toString i)).length := by
      simpa using hi
    have hj2 : j < ((List.range k).map (fun i => pfx ++ toString i)).length := by
      simpa using hj
    have hgi : ((List.range k).map (fun i => pfx ++ toString i))[i]
        = pfx ++ toString i := by simp
    have hgj : ((List.range k).map (fun i => pfx ++ toString i))[j]
        = pfx ++ toString j := by simp
    exact (List.Nodup.getElem_inj_iff h1).mp (by rw [hgi, hgj]; exact he)
  · intro i j hi hj he
    have hmem1 : pfx ++ toString i ∈ (List.range k).map (fun i => pfx ++ toString i) :=
      List.mem_map.mpr ⟨i, List.mem_range.mpr hi, rfl⟩
    have hmem2 : "primed" ++ (pfx ++ toString j)
        ∈ ((List.range k).map (fun i => pfx ++ toString i)).map (fun v => "primed" ++ v) :=
      List.mem_map.mpr ⟨pfx ++ toString j,
        List.mem_map.mpr ⟨j, List.mem_range.mpr hj, rfl⟩, rfl⟩
    exact (hdisj hmem1) (by rw [he]; exact hmem2)
  · intro i j hi hj he
    have hi2 : i < (((List.range k).map (fun i => pfx ++ toString i)).map
        (fun v => "primed" ++ v)).length := by simpa using hi
    have hj2 : j < (((List.range k).map (fun i => pfx ++ toString i)).map
        (fun v => "primed" ++ v)).length := by simpa using hj
    have hgi : (((List.range k).map (fun i => pfx ++ toString i)).map
        (fun v => "primed" ++ v))[i]
        = "primed" ++ (pfx ++ toString i) := by simp
    have hgj : (((List.range k).map (fun i => pfx ++ toString i)).map
        (fun v => "primed" ++ v))[j]
        = "primed" ++ (pfx ++ toString j) := by simp
    exact (List.Nodup.getElem_inj_iff h2).mp (by rw [hgi, hgj]; exact he)

/-- C10: with `generate_primed=True` the variable-name map contains both
directions for every allocated variable (`v ↦ primed v` and
`primed v ↦ v`), so the renaming function it induces is an involution on
variable names and substituting with this single map twice is the identity
on BDDs — a substitution with the map swaps the primed and unprimed blocks,
which is what `Network.compute_reachable_space` relies on when it renames
the primed post-image back to unprimed variables using the same map. -/
theorem np2p_both_directions_involution (label_list : List String) (mgr : List String)
    (pfx : String) (res : EncodeResult)
    (h : encode_list_of_labels label_list mgr pfx true = some res)
    (_h2 : 2 ≤ label_list.length)
    (hnames : (res.bdd_var_names
        ++ res.bdd_var_names.map (fun v => "primed" ++ v)).Nodup) :
    (∀ v ∈ res.bdd_var_names,
        dictLookup v res.nonprimed_to_primed_dict = some ("primed" ++ v) ∧
        dictLookup ("primed" ++ v) res.nonprimed_to_primed_dict = some v) ∧
    (∀ v, Bf.renameFn res.nonprimed_to_primed_dict
        (Bf.renameFn res.nonprimed_to_primed_dict v) = v) ∧
    (∀ f : Bf, (f.rename res.nonprimed_to_primed_dict).rename
        res.nonprimed_to_primed_dict = f) := by
  obtain ⟨hmgr, hvarnames, hnp, -, -⟩ :=
    encode_list_of_labels_spec label_list mgr pfx true res h
  set k := neededVars label_list.length with hk
  rw [hvarnames] at hnames
  obtain ⟨hvv, hvp, hpp⟩ := names_nodup_facts pfx k hnames
  have hlook : ∀ j, j < k →
      dictLookup (pfx ++ toString j) res.nonprimed_to_primed_dict
        = some ("primed" ++ (pfx ++ toString j)) ∧
      dictLookup ("primed" ++ (pfx ++ toString j)) res.nonprimed_to_primed_dict
        = some (pfx ++ toString j) := by
    intro j hj
    rw [hnp]
    exact addVars_np2p_lookup pfx mgr k hvv hvp hpp j hj
  have hnone : ∀ w, (∀ i, i < k → w ≠ pfx ++ toString i ∧
      w ≠ "primed" ++ (pfx ++ toString i)) →
      dictLookup w res.nonprimed_to_primed_dict = none := by
    intro w hw
    rw [hnp]
    exact addVars_np2p_keys pfx mgr k w hw
  have hmem_var : ∀ v, v ∈ res.bdd_var_names ↔ ∃ j, j < k ∧ v = pfx ++ toString j := by
    intro v
    rw [hvarnames]
    simp only [List.mem_map, List.mem_range]
    constructor
    · rintro ⟨j, hj, rfl⟩; exact ⟨j, hj, rfl⟩
    · rintro ⟨j, hj, rfl⟩; exact ⟨j, hj, rfl⟩
  have hinv : ∀ v, Bf.renameFn res.nonprimed_to_primed_dict
      (Bf.renameFn res.nonprimed_to_primed_dict v) = v := by
    intro v
    by_cases hv1 : ∃ j, j < k ∧ v = pfx ++ toString j
    · obtain ⟨j, hj, rfl⟩ := hv1
      rw [Bf.renameFn_eq_of_lookup _ _ _ (hlook j hj).1,
        Bf.renameFn_eq_of_lookup _ _ _ (hlook j hj).2]
    · by_cases hv2 : ∃ j, j < k ∧ v = "primed" ++ (pfx ++ toString j)
      · obtain ⟨j, hj, rfl⟩ := hv2
        rw [Bf.renameFn_eq_of_lookup _ _ _ (hlook j hj).2,
          Bf.renameFn_eq_of_lookup _ _ _ (hlook j hj).1]
      · have hfix : dictLookup v res.nonprimed_to_primed_dict = none := by
          apply hnone
          intro i hi
          constructor
          · exact fun he => hv1 ⟨i, hi, he⟩
          · exact fun he => hv2 ⟨i, hi, he⟩
        rw [Bf.renameFn_eq_of_none _ _ hfix, Bf.renameFn_eq_of_none _ _ hfix]
  refine ⟨?_, hinv, fun f => Bf.rename_rename_of_involutive _ hinv f⟩
  intro v hv
  obtain ⟨j, hj, rfl⟩ := (hmem_var v).mp hv
  exact hlook j hj

/-- Witness for `np2p_both_directions_involution`. -/
theorem np2p_both_directions_involution_witness :
    encode_list_of_labels ["x", "y"] [] "v" true
      = some ⟨["v0", "primedv0"], ["v0"],
          [("x", Bf.tt.and (Bf.var "v0").not), ("y", Bf.tt.and (Bf.var "v0"))],
          [("v0", "primedv0"), ("primedv0", "v0")]⟩ ∧
    2 ≤ (["x", "y"] : List String).length ∧
    ((["v0"] : List String) ++ (["v0"] : List String).map (fun v => "primed" ++ v)).Nodup ∧
    ((∀ v ∈ (["v0"] : List String),
        dictLookup v [("v0", "primedv0"), ("primedv0", "v0")] = some ("primed" ++ v) ∧
        dictLookup ("primed" ++ v) [("v0", "primedv0"), ("primedv0", "v0")] = some v) ∧
      (∀ v, Bf.renameFn [("v0", "primedv0"), ("primedv0", "v0")]
          (Bf.renameFn [("v0", "primedv0"), ("primedv0", "v0")] v) = v) ∧
      (∀ f : Bf, (f.rename [("v0", "primedv0"), ("primedv0", "v0")]).rename
          [("v0", "primedv0"), ("primedv0", "v0")] = f)) :=
  ⟨by decide, by decide, by decide,
    np2p_both_directions_involution ["x", "y"] [] "v"
      ⟨["v0", "primedv0"], ["v0"],
        [("x", Bf.tt.and (Bf.var "v0").not), ("y", Bf.tt.and (Bf.var "v0"))],
        [("v0", "primedv0"), ("primedv0", "v0")]⟩
      (by decide) (by decide) (by decide)⟩

/-!
## `read_actions` (source lines 30-33) and the model/automaton readers
-/

/-- Python's `str.strip()` with no argument on the characters of a line:
drop leading and trailing whitespace.  (We use `Char.isWhitespace`, which
agrees with Python's default whitespace set on ASCII text.) -/
def pyStrip (s : String) : String :=
  String.mk (((s.data.dropWhile Char.isWhitespace).reverse.dropWhile
    Char.isWhitespace).reverse)

/-- Helper for `pyReadlines`: split a character stream after every newline,
accumulating the current line in reverse. -/
def pyReadlinesAux : List Char → List Char → List String
  | cur, [] => if cur = [] then [] else [String.mk cur.reverse]
  | cur, c :: rest =>
      if c = '\n' then String.mk (cur.reverse ++ ['\n']) :: pyReadlinesAux [] rest
      else pyReadlinesAux (c :: cur) rest

/-- Python's `f.readlines()` on a text file whose content is `content`:
the lines with their `'\n'` terminators, plus a final unterminated line
when the file does not end in a newline. -/
def pyReadlines (content : String) : List String :=
  pyReadlinesAux [] content.data

/-- `read_actions` (source lines 30-33): strip every line of the sync file.
No line is dropped — empty lines become empty-string action labels. -/
def read_actions (content : String) : List String :=
  (pyReadlines content).map pyStrip

/-- C8 counterexample: on a sync file with an empty line, `read_actions`
keeps the empty line as an empty-string action label, so the result is not
the claimed list of trimmed non-empty lines. -/
theorem read_actions_counterexample :
    read_actions "a\n\nb\n" = ["a", "", "b"] ∧ (["a", "", "b"] : List String) ≠ ["a", "b"] := by
  constructor
  · rfl
  · decide

/-- C8 (amended): `read_actions` returns exactly the file's lines each
trimmed of leading and trailing whitespace, in file order, one output entry
per line — empty lines are kept as empty-string entries, not excluded. -/
theorem read_actions_trims_all_lines (content : String) :
    read_actions content = (pyReadlines content).map pyStrip ∧
    (read_actions content).length = (pyReadlines content).length := by
  constructor
  · rfl
  · simp [read_actions]

/-- The raw data of an `Automaton` as set up by `__init__` and
`read_automaton` (source lines 105-141); the BDD artifacts built by
`encode_model` live in `AutomatonEncoded`. -/
structure Automaton where
  name : String
  known_actions : List String
  states : List String
  init_state : String
  transitions : List (String × String × String)
  tau_label : String
deriving DecidableEq, Repr

/-- `Automaton.read_automaton` (source lines 129-141) applied to the parsed
model (`states`, `transitions`) and the action alphabet.  `states[0]`
raises `IndexError` on an empty state list (`none`).  A transition whose
label is not in `actions_list` is rewritten to the tau label `'tau'`
(from `__init__`); the label of every other transition is appended to
`known_actions`, which starts as `['tau']`. -/
def read_automaton (name : String) (states : List String)
    (transitions : List (String × String × String)) (actions_list : List String) :
    Option Automaton :=
  if states = [] then none
  else some
    { name := name
      known_actions := "tau" :: transitions.filterMap
        (fun tr => if tr.2.1 ∈ actions_list then some tr.2.1 else none)
      states := states
      init_state := states.headD ""
      transitions := transitions.map
        (fun tr => if tr.2.1 ∈ actions_list then tr else (tr.1, "tau", tr.2.2))
      tau_label := "tau" }

/-- C7: on a parsed model with a nonempty state list, `read_automaton` sets
the initial state to the first state of the state list, replaces the label
of every transition whose label is not in the action alphabet by `'tau'`
while leaving all other transition fields unchanged, and afterwards
`known_actions` contains a label iff it is `'tau'` or it is an alphabet
label appearing on some transition of the automaton. -/
theorem read_automaton_spec (name : String) (states : List String)
    (transitions : List (String × String × String)) (actions_list : List String)
    (hne : states ≠ []) :
    ∃ auto, read_automaton name states transitions actions_list = some auto ∧
      auto.init_state = states.head hne ∧
      auto.transitions = transitions.map
        (fun tr => if tr.2.1 ∈ actions_list then tr else (tr.1, "tau", tr.2.2)) ∧
      (∀ l, l ∈ auto.known_actions ↔
        (l = "tau" ∨ (l ∈ actions_list ∧ ∃ tr ∈ transitions, tr.2.1 = l))) := by
  refine ⟨_, by rw [read_automaton, if_neg hne], ?_, rfl, ?_⟩
  · match states, hne with
    | s :: rest, _ => rfl
  · intro l
    simp only [List.mem_cons, List.mem_filterMap]
    constructor
    · rintro (rfl | ⟨tr, htr, hsome⟩)
      · exact Or.inl rfl
      · by_cases hmem : tr.2.1 ∈ actions_list
        · rw [if_pos hmem] at hsome
          obtain rfl : tr.2.1 = l := by simpa using hsome
          exact Or.inr ⟨hmem, tr, htr, rfl⟩
        · rw [if_neg hmem] at hsome
          simp at hsome
    · rintro (rfl | ⟨hl, tr, htr, rfl⟩)
      · exact Or.inl rfl
      · exact Or.inr ⟨tr, htr, by rw [if_pos hl]⟩

/-- Witness for `read_automaton_spec`. -/
theorem read_automaton_spec_witness :
    (["s0", "s1"] : List String) ≠ [] ∧
    (∃ auto, read_automaton "A" ["s0", "s1"]
        [("s0", "go", "s1"), ("s1", "x", "s0")] ["go"] = some auto ∧
      auto.init_state = (["s0", "s1"] : List String).head (by decide) ∧
      auto.transitions = ([("s0", "go", "s1"), ("s1", "x", "s0")] :
          List (String × String × String)).map
        (fun tr => if tr.2.1 ∈ (["go"] : List String) then tr else (tr.1, "tau", tr.2.2)) ∧
      (∀ l, l ∈ auto.known_actions ↔
        (l = "tau" ∨ (l ∈ (["go"] : List String) ∧
          ∃ tr ∈ ([("s0", "go", "s1"), ("s1", "x", "s0")] :
            List (String × String × String)), tr.2.1 = l)))) :=
  ⟨by decide, read_automaton_spec "A" ["s0", "s1"]
    [("s0", "go", "s1"), ("s1", "x", "s0")] ["go"] (by decide)⟩

/-!
## `Automaton.encode_model` (source lines 160-199)
-/

/-- The BDD artifacts of an automaton after `Automaton.encode_model`
(source lines 160-199), together with the raw data carried over. -/
structure AutomatonEncoded where
  name : String
  known_actions : List String
  states : List String
  init_state : String
  transitions : List (String × String × String)
  tau_label : String
  state_bdd_vars : List String
  state_bdd_vars_nonprimed_to_primed_dict : List (String × String)
  state_to_nonprimed_bdd_encoding : List (String × Bf)
  action_bdd_vars : List String
  action_to_bdd_encoding : List (String × Bf)
  init_state_bdd : Bf
  identity : Bf
  transition_relation : List (String × Bf)
deriving DecidableEq, Repr

/-- `label_bdd = tau_bdd if label == self.tau_label else
self.action_to_bdd_encoding[label]` (source line 187), with
`tau_bdd = self.mgr.true` (line 173). -/
def labelBddOf (actionEnc : List (String × Bf)) (tau lab : String) : Option Bf :=
  if lab = tau then some Bf.tt else dictLookup lab actionEnc

/-- One transition's disjunct
`source_bdd & label_bdd & target_bdd_primed` (source lines 185-199):
`none` models an uncaught `KeyError`. -/
def transBdd (encs : List (String × Bf)) (np2p : List (String × String))
    (actionEnc : List (String × Bf)) (tau : String)
    (tr : String × String × String) : Option Bf := do
  let source_bdd ← dictLookup tr.1 encs
  let label_bdd ← labelBddOf actionEnc tau tr.2.1
  let target_bdd ← dictLookup tr.2.2 encs
  some ((source_bdd.and label_bdd).and (target_bdd.rename np2p))

/-- The transition-relation loop (source lines 181-199): initialize every
known action's entry to `mgr.false`, then or each transition's disjunct
into its label's entry. -/
def buildTransitionDict (encs : List (String × Bf)) (np2p : List (String × String))
    (actionEnc : List (String × Bf)) (tau : String)
    (known_actions : List String) (transitions : List (String × String × String)) :
    Option (List (String × Bf)) :=
  transitions.foldlM
    (fun d tr => do
      let disj ← transBdd encs np2p actionEnc tau tr
      let cur ← dictLookup tr.2.1 d
      some (dictInsert tr.2.1 (cur.or disj) d))
    (known_actions.foldl (fun d a => dictInsert a Bf.ff d) [])

/-- `Automaton.encode_model` (source lines 160-199): encode the states with
fresh unprimed/primed variables, build the initial-state BDD, the state
identity and the per-action transition relations.  The debug block at lines
192-197 only prints (its `mgr.let` calls build BDDs that are discarded),
so it has no effect on the result.  Returns the post-call manager state and
the encoded automaton; `none` models an uncaught exception. -/
def Automaton.encode_model (auto : Automaton) (mgr : List String)
    (action_bdd_vars : List String) (action_to_bdd_encoding : List (String × Bf)) :
    Option (List String × AutomatonEncoded) := do
  let res ← encode_list_of_labels auto.states mgr (auto.name ++ "state") true
  let init_state_bdd ← dictLookup auto.init_state res.encodings_dict
  let identity := res.encodings_dict.foldl
    (fun acc se => acc.or (se.2.and (se.2.rename res.nonprimed_to_primed_dict))) Bf.ff
  let tr ← buildTransitionDict res.encodings_dict res.nonprimed_to_primed_dict
    action_to_bdd_encoding auto.tau_label auto.known_actions auto.transitions
  some (res.mgr,
    { name := auto.name, known_actions := auto.known_actions, states := auto.states,
      init_state := auto.init_state, transitions := auto.transitions,
      tau_label := auto.tau_label,
      state_bdd_vars := res.bdd_var_names,
      state_bdd_vars_nonprimed_to_primed_dict := res.nonprimed_to_primed_dict,
      state_to_nonprimed_bdd_encoding := res.encodings_dict,
      action_bdd_vars := action_bdd_vars,
      action_to_bdd_encoding := action_to_bdd_encoding,
      init_state_bdd := init_state_bdd,
      identity := identity,
      transition_relation := tr })

theorem encode_model_destruct (auto : Automaton) (mgr : List String)
    (action_bdd_vars : List String) (aenc : List (String × Bf))
    (mgr' : List String) (ea : AutomatonEncoded)
    (h : auto.encode_model mgr action_bdd_vars aenc = some (mgr', ea)) :
    ∃ res, encode_list_of_labels auto.states mgr (auto.name ++ "state") true = some res ∧
      res.mgr = mgr' ∧
      ea.state_bdd_vars = res.bdd_var_names ∧
      ea.state_bdd_vars_nonprimed_to_primed_dict = res.nonprimed_to_primed_dict ∧
      ea.state_to_nonprimed_bdd_encoding = res.encodings_dict ∧
      dictLookup auto.init_state res.encodings_dict = some ea.init_state_bdd ∧
      buildTransitionDict res.encodings_dict res.nonprimed_to_primed_dict aenc
        auto.tau_label auto.known_actions auto.transitions
        = some ea.transition_relation ∧
      ea.known_actions = auto.known_actions ∧ ea.transitions = auto.transitions ∧
      ea.states = auto.states ∧ ea.tau_label = auto.tau_label := by
  unfold Automaton.encode_model at h
  cases h1 : encode_list_of_labels auto.states mgr (auto.name ++ "state") true with
  | none => rw [h1] at h; simp at h
  | some res =>
      rw [h1] at h
      simp only [Option.bind_eq_bind, Option.some_bind] at h
      cases h2 : dictLookup auto.init_state res.encodings_dict with
      | none => rw [h2] at h; simp at h
      | some initB =>
          rw [h2] at h
          simp only [Option.some_bind] at h
          cases h3 : buildTransitionDict res.encodings_dict res.nonprimed_to_primed_dict
              aenc auto.tau_label auto.known_actions auto.transitions with
          | none => rw [h3] at h; simp at h
          | some trd =>
              rw [h3] at h
              simp only [Option.some_bind, Option.some.injEq, Prod.mk.injEq] at h
              obtain ⟨hmgr, hea⟩ := h
              subst hea
              exact ⟨res, rfl, hmgr, rfl, rfl, rfl, h2, h3, rfl, rfl, rfl, rfl⟩

theorem initTR_lookup_aux (l : List String) :
    ∀ (d : List (String × Bf)) (a : String),
      dictLookup a (l.foldl (fun d a => dictInsert a Bf.ff d) d)
        = if a ∈ l then some Bf.ff else dictLookup a d := by
  induction l with
  | nil => intro d a; simp
  | cons b rest ih =>
      intro d a
      rw [List.foldl_cons, ih]
      by_cases hmem : a ∈ rest
      · simp [hmem]
      · by_cases hba : b = a
        · subst hba
          simp [hmem, dictLookup_insert_self]
        · simp only [hmem, if_false]
          rw [dictLookup_insert_of_ne _ _ _ _ hba]
          have hnotin : ¬ a ∈ b :: rest := by
            intro hc
            rcases List.mem_cons.mp hc with rfl | hc2
            · exact hba rfl
            · exact hmem hc2
          simp [hnotin]

theorem initTR_lookup (known_actions : List String) (a : String) :
    dictLookup a (known_actions.foldl (fun d a => dictInsert a Bf.ff d) [])
      = if a ∈ known_actions then some Bf.ff else none := by
  rw [initTR_lookup_aux known_actions [] a]
  rfl

theorem buildTR_all_some (encs : List (String × Bf)) (np2p : List (String × String))
    (actionEnc : List (String × Bf)) (tau : String)
    (transitions : List (String × String × String)) :
    ∀ (d₀ d' : List (String × Bf)),
      (transitions.foldlM (fun d tr => do
          let disj ← transBdd encs np2p actionEnc tau tr
          let cur ← dictLookup tr.2.1 d
          some (dictInsert tr.2.1 (cur.or disj) d)) d₀) = some d' →
      ∀ tr ∈ transitions, ∃ b, transBdd encs np2p actionEnc tau tr = some b := by
  induction transitions with
  | nil => intro d₀ d' _ tr htr; simp at htr
  | cons t0 rest ih =>
      intro d₀ d' h tr htr
      rw [List.foldlM_cons] at h
      cases hX : transBdd encs np2p actionEnc tau t0 with
      | none => rw [hX] at h; simp at h
      | some disj =>
          rw [hX] at h
          cases hY : dictLookup t0.2.1 d₀ with
          | none =>
              rw [hY] at h
              have hbad : (none : Option (List (String × Bf))) = some d' := h
              simp at hbad
          | some cur =>
              rw [hY] at h
              have h' : (rest.foldlM (fun d tr => do
                  let disj ← transBdd encs np2p actionEnc tau tr
                  let cur ← dictLookup tr.2.1 d
                  some (dictInsert tr.2.1 (cur.or disj) d))
                  (dictInsert t0.2.1 (cur.or disj) d₀)) = some d' := h
              rcases List.mem_cons.mp htr with rfl | hmem
              · exact ⟨disj, hX⟩
              · exact ih _ d' h' tr hmem

theorem buildTR_fold_lookup (encs : List (String × Bf)) (np2p : List (String × String))
    (actionEnc : List (String × Bf)) (tau : String)
    (transitions : List (String × String × String)) :
    ∀ (d₀ d' : List (String × Bf)),
      (transitions.foldlM (fun d tr => do
          let disj ← transBdd encs np2p actionEnc tau tr
          let cur ← dictLookup tr.2.1 d
          some (dictInsert tr.2.1 (cur.or disj) d)) d₀) = some d' →
      ∀ (a : String) (B₀ : Bf), dictLookup a d₀ = some B₀ →
        ∃ B, dictLookup a d' = some B ∧
          ∀ x, B.eval x = (B₀.eval x ||
            (transitions.filter (fun tr => tr.2.1 = a)).any
              (fun tr => ((transBdd encs np2p actionEnc tau tr).getD Bf.ff).eval x)) := by
  induction transitions with
  | nil =>
      intro d₀ d' h a B₀ hB₀
      have hd : d₀ = d' := by simpa using h
      refine ⟨B₀, by rw [← hd]; exact hB₀, ?_⟩
      intro x
      simp
  | cons t0 rest ih =>
      intro d₀ d' h a B₀ hB₀
      rw [List.foldlM_cons] at h
      cases hX : transBdd encs np2p actionEnc tau t0 with
      | none => rw [hX] at h; simp at h
      | some disj =>
          rw [hX] at h
          cases hY : dictLookup t0.2.1 d₀ with
          | none =>
              rw [hY] at h
              have hbad : (none : Option (List (String × Bf))) = some d' := h
              simp at hbad
          | some cur =>
              rw [hY] at h
              have h' : (rest.foldlM (fun d tr => do
                  let disj ← transBdd encs np2p actionEnc tau tr
                  let cur ← dictLookup tr.2.1 d
                  some (dictInsert tr.2.1 (cur.or disj) d))
                  (dictInsert t0.2.1 (cur.or disj) d₀)) = some d' := h
              by_cases hlab : t0.2.1 = a
              · subst hlab
                have hcur : cur = B₀ := by
                  rw [hY] at hB₀
                  exact (Option.some.injEq _ _).mp hB₀
                subst hcur
                have hd1 : dictLookup t0.2.1 (dictInsert t0.2.1 (cur.or disj) d₀)
                    = some (cur.or disj) := dictLookup_insert_self _ _ _
                obtain ⟨B, hBlook, hBeval⟩ := ih _ d' h' t0.2.1 (cur.or disj) hd1
                refine ⟨B, hBlook, ?_⟩
                intro x
                rw [hBeval x]
                rw [List.filter_cons_of_pos (by simp)]
                rw [List.any_cons]
                rw [hX]
                simp [Bool.or_assoc]
              · have hd1 : dictLookup a (dictInsert t0.2.1 (cur.or disj) d₀)
                    = some B₀ := by
                  rw [dictLookup_insert_of_ne _ _ _ _ hlab]
                  exact hB₀
                obtain ⟨B, hBlook, hBeval⟩ := ih _ d' h' a B₀ hd1
                refine ⟨B, hBlook, ?_⟩
                intro x
                rw [hBeval x]
                rw [List.filter_cons_of_neg (by simp [hlab])]

theorem transBdd_destruct (encs : List (String × Bf)) (np2p : List (String × String))
    (actionEnc : List (String × Bf)) (tau : String) (tr : String × String × String)
    (B : Bf) (h : transBdd encs np2p actionEnc tau tr = some B) :
    ∃ eS lb eT, dictLookup tr.1 encs = some eS ∧
      labelBddOf actionEnc tau tr.2.1 = some lb ∧
      dictLookup tr.2.2 encs = some eT ∧
      B = (eS.and lb).and (eT.rename np2p) := by
  unfold transBdd at h
  cases h1 : dictLookup tr.1 encs with
  | none => rw [h1] at h; simp at h
  | some eS =>
      rw [h1] at h
      cases h2 : labelBddOf actionEnc tau tr.2.1 with
      | none => rw [h2] at h; simp at h
      | some lb =>
          rw [h2] at h
          cases h3 : dictLookup tr.2.2 encs with
          | none => rw [h3] at h; simp at h
          | some eT =>
              rw [h3] at h
              simp only [Option.bind_eq_bind, Option.some_bind, Option.some.injEq] at h
              exact ⟨eS, lb, eT, rfl, rfl, rfl, h.symm⟩

theorem testBit_high_eq (i1 i2 k : Nat) (h1 : i1 < 2 ^ k) (h2 : i2 < 2 ^ k)
    (h : ∀ j, j < k → i1.testBit (k - 1 - j) = i2.testBit (k - 1 - j)) : i1 = i2 := by
  apply Nat.eq_of_testBit_eq
  intro b
  by_cases hb : b < k
  · have := h (k - 1 - b) (by omega)
    rwa [show k - 1 - (k - 1 - b) = b from by omega] at this
  · rw [Nat.testBit_lt_two_pow
        (lt_of_lt_of_le h1 (Nat.pow_le_pow_right (by omega) (by omega))),
      Nat.testBit_lt_two_pow
        (lt_of_lt_of_le h2 (Nat.pow_le_pow_right (by omega) (by omega)))]

/-- C4: for an automaton with at least two (distinct) states and fresh
state variables, after `Automaton.encode_model` the per-action entry
`transition_relation[a]` is semantically the disjunction over exactly the
transitions of the automaton labelled `a` of
`enc(source) ∧ label_bdd(a) ∧ enc(target)[primed]` — where `label_bdd` of
the tau label is the constant true (action variables unconstrained) and
otherwise the shared action encoding — and a minterm triple
`enc(s) ∧ act(a) ∧ enc(t)[primed]` is contained in `transition_relation[a]`
iff `(s, a, t)` is a transition of the automaton. -/
theorem automaton_transition_relation_correct
    (auto : Automaton) (mgr : List String) (action_bdd_vars : List String)
    (actionEnc : List (String × Bf)) (mgr' : List String) (ea : AutomatonEncoded)
    (henc : auto.encode_model mgr action_bdd_vars actionEnc = some (mgr', ea))
    (hnodup : auto.states.Nodup) (h2 : 2 ≤ auto.states.length)
    (hvarsN : (ea.state_bdd_vars ++ ea.state_bdd_vars.map (fun w => "primed" ++ w)).Nodup)
    (a : String) (ha : a ∈ auto.known_actions)
    (Ra : Bf) (hRa : dictLookup a ea.transition_relation = some Ra)
    (actBdd : Bf) (hact : labelBddOf actionEnc auto.tau_label a = some actBdd)
    (hsat : ∃ xa, actBdd.eval xa = true)
    (hdisj : ∀ v ∈ actBdd.supp, v ∉ ea.state_bdd_vars ∧
        v ∉ ea.state_bdd_vars.map (fun w => "primed" ++ w))
    (s t : String) (es et : Bf)
    (hes : dictLookup s ea.state_to_nonprimed_bdd_encoding = some es)
    (het : dictLookup t ea.state_to_nonprimed_bdd_encoding = some et) :
    (∀ x, Ra.eval x = (auto.transitions.filter (fun tr => tr.2.1 = a)).any
        (fun tr => ((transBdd ea.state_to_nonprimed_bdd_encoding
            ea.state_bdd_vars_nonprimed_to_primed_dict actionEnc auto.tau_label tr).getD
          Bf.ff).eval x)) ∧
    ((∀ x, ((es.and actBdd).and
        (et.rename ea.state_bdd_vars_nonprimed_to_primed_dict)).eval x = true →
        Ra.eval x = true) ↔ (s, a, t) ∈ auto.transitions) := by
  obtain ⟨res, hres, hmgr', hvarseq, hnp2peq, hecseq, hinitB, hTR, hka, htrs, hsts, htau⟩ :=
    encode_model_destruct auto mgr action_bdd_vars actionEnc mgr' ea henc
  rw [hecseq] at hes het
  rw [hvarseq] at hvarsN hdisj
  simp only [hecseq, hnp2peq, hvarseq]
  -- part 1
  have hinit : dictLookup a (auto.known_actions.foldl (fun d a => dictInsert a Bf.ff d) [])
      = some Bf.ff := by
    rw [initTR_lookup]
    simp [ha]
  unfold buildTransitionDict at hTR
  obtain ⟨B, hBlook, hBeval⟩ := buildTR_fold_lookup res.encodings_dict
    res.nonprimed_to_primed_dict actionEnc auto.tau_label auto.transitions _ _
    hTR a Bf.ff hinit
  have hBRa : B = Ra := by
    rw [hBlook] at hRa
    exact (Option.some.injEq _ _).mp hRa
  rw [hBRa] at hBeval
  have hpart1 : ∀ x, Ra.eval x = (auto.transitions.filter (fun tr => tr.2.1 = a)).any
      (fun tr => ((transBdd res.encodings_dict res.nonprimed_to_primed_dict actionEnc
          auto.tau_label tr).getD Bf.ff).eval x) := by
    intro x
    rw [hBeval x]
    simp
  refine ⟨hpart1, ?_⟩
  -- shared state-encoding facts
  obtain ⟨-, hnamesMap, hnpd, hnone, -⟩ :=
    encode_list_of_labels_spec auto.states mgr (auto.name ++ "state") true res hres
  set pfxA := auto.name ++ "state" with hpfxA
  set k := neededVars auto.states.length with hkdef
  have hvN : res.bdd_var_names.Nodup := hvarsN.of_append_left
  have hpNodup : (res.bdd_var_names.map (fun w => "primed" ++ w)).Nodup :=
    hvarsN.of_append_right
  have hdisjvp := List.disjoint_of_nodup_append hvarsN
  have hlenvars : res.bdd_var_names.length = k :=
    encode_var_names_length auto.states mgr pfxA true res hres
  have hgetvar : ∀ j, ∀ hj : j < res.bdd_var_names.length,
      res.bdd_var_names.get ⟨j, hj⟩ = pfxA ++ toString j :=
    fun j hj => encode_var_names_get auto.states mgr pfxA true res hres j hj
  have hvarsNmap : ((List.range k).map (fun i => pfxA ++ toString i)
      ++ ((List.range k).map (fun i => pfxA ++ toString i)).map
        (fun w => "primed" ++ w)).Nodup := by
    rw [← hnamesMap]
    exact hvarsN
  obtain ⟨hvv, hvp, hpp⟩ := names_nodup_facts pfxA k hvarsNmap
  have hlook_np2p : ∀ j, j < k →
      dictLookup (pfxA ++ toString j) res.nonprimed_to_primed_dict
        = some ("primed" ++ (pfxA ++ toString j)) := by
    intro j hj
    rw [hnpd]
    exact (addVars_np2p_lookup pfxA mgr k hvv hvp hpp j hj).1
  have hmem_of_lookup : ∀ (u : String) (eu : Bf),
      dictLookup u res.encodings_dict = some eu → u ∈ auto.states := by
    intro u eu hu
    by_contra hc
    rw [hnone u hc] at hu
    simp at hu
  have hchar : ∀ (u : String) (eu : Bf),
      dictLookup u res.encodings_dict = some eu →
      ∃ i, ∃ hi : i < auto.states.length, auto.states.get ⟨i, hi⟩ = u ∧
        ∀ x, eu.eval x = true ↔
          ∀ j, j < k → x (pfxA ++ toString j) = i.testBit (k - 1 - j) := by
    intro u eu hu
    obtain ⟨⟨i, hi⟩, hg⟩ := List.mem_iff_get.mp (hmem_of_lookup u eu hu)
    obtain ⟨e, helook, hechar, -⟩ :=
      encode_minterm_eval auto.states mgr pfxA true res hres hnodup h2 i hi
    rw [hg, hu] at helook
    obtain rfl : eu = e := (Option.some.injEq _ _).mp helook
    exact ⟨i, hi, hg, hechar⟩
  obtain ⟨i_s, hi_s, hg_s, hchar_s⟩ := hchar s es hes
  obtain ⟨i_t, hi_t, hg_t, hchar_t⟩ := hchar t et het
  have hik : ∀ i : Nat, i < auto.states.length → i < 2 ^ k := by
    intro i hi
    have := le_two_pow_neededVars auto.states.length
    rw [hkdef]
    omega
  -- the disjunct of (s, a, t)
  have htb : transBdd res.encodings_dict res.nonprimed_to_primed_dict actionEnc
      auto.tau_label (s, a, t)
      = some ((es.and actBdd).and (et.rename res.nonprimed_to_primed_dict)) := by
    unfold transBdd
    rw [show dictLookup ((s, a, t) : String × String × String).1 res.encodings_dict
        = some es from hes]
    rw [show labelBddOf actionEnc auto.tau_label
        ((s, a, t) : String × String × String).2.1 = some actBdd from hact]
    rw [show dictLookup ((s, a, t) : String × String × String).2.2 res.encodings_dict
        = some et from het]
    rfl
  constructor
  · -- containment implies membership
    intro himp
    obtain ⟨xa, hxa⟩ := hsat
    set x₀ : String → Bool := fun v =>
      if v ∈ res.bdd_var_names then
        i_s.testBit (k - 1 - res.bdd_var_names.indexOf v)
      else if v ∈ res.bdd_var_names.map (fun w => "primed" ++ w) then
        i_t.testBit (k - 1 - (res.bdd_var_names.map (fun w => "primed" ++ w)).indexOf v)
      else xa v
      with hx₀
    have hxv : ∀ j, j < k → x₀ (pfxA ++ toString j) = i_s.testBit (k - 1 - j) := by
      intro j hj
      have hjlen : j < res.bdd_var_names.length := by omega
      rw [← hgetvar j hjlen, hx₀]
      simp only
      rw [if_pos (res.bdd_var_names.get_mem j hjlen)]
      rw [show res.bdd_var_names.get ⟨j, hjlen⟩ = res.bdd_var_names[j] from rfl,
        List.indexOf_getElem hvN]
    have hxp : ∀ j, j < k →
        x₀ ("primed" ++ (pfxA ++ toString j)) = i_t.testBit (k - 1 - j) := by
      intro j hj
      have hjlen : j < res.bdd_var_names.length := by omega
      have hjplen : j < (res.bdd_var_names.map (fun w => "primed" ++ w)).length := by
        simpa using hjlen
      have hpget : (res.bdd_var_names.map (fun w => "primed" ++ w)).get ⟨j, hjplen⟩
          = "primed" ++ (pfxA ++ toString j) := by
        rw [show (res.bdd_var_names.map (fun w => "primed" ++ w)).get ⟨j, hjplen⟩
            = (res.bdd_var_names.map (fun w => "primed" ++ w))[j] from rfl]
        rw [List.getElem_map]
        rw [show res.bdd_var_names[j] = res.bdd_var_names.get ⟨j, hjlen⟩ from rfl]
        rw [hgetvar j hjlen]
      have hpmem : "primed" ++ (pfxA ++ toString j)
          ∈ res.bdd_var_names.map (fun w => "primed" ++ w) := by
        rw [← hpget]
        exact (res.bdd_var_names.map (fun w => "primed" ++ w)).get_mem j hjplen
      have hpnotv : "primed" ++ (pfxA ++ toString j) ∉ res.bdd_var_names := by
        intro hc
        exact (hdisjvp hc) hpmem
      rw [hx₀]
      simp only
      rw [if_neg hpnotv, if_pos hpmem]
      rw [← hpget]
      rw [show (res.bdd_var_names.map (fun w => "primed" ++ w)).get ⟨j, hjplen⟩
          = (res.bdd_var_names.map (fun w => "primed" ++ w))[j] from rfl,
        List.indexOf_getElem hpNodup]
    have hxact : actBdd.eval x₀ = actBdd.eval xa := by
      apply Bf.eval_congr
      intro v hv
      obtain ⟨hv1, hv2⟩ := hdisj v hv
      rw [hx₀]
      simp only
      rw [if_neg hv1, if_neg hv2]
    have hM : ((es.and actBdd).and (et.rename res.nonprimed_to_primed_dict)).eval x₀
        = true := by
      rw [Bf.eval_and, Bf.eval_and]
      have h1 : es.eval x₀ = true := by
        rw [hchar_s x₀]
        intro j hj
        exact hxv j hj
      have h2 : actBdd.eval x₀ = true := by rw [hxact]; exact hxa
      have h3 : (et.rename res.nonprimed_to_primed_dict).eval x₀ = true := by
        rw [Bf.eval_rename]
        rw [hchar_t _]
        intro j hj
        rw [Bf.renameFn_eq_of_lookup _ _ _ (hlook_np2p j hj)]
        exact hxp j hj
      rw [h1, h2, h3]
      rfl
    have hRx := himp x₀ hM
    rw [hpart1 x₀] at hRx
    obtain ⟨tr, htrmem, htreval⟩ := List.any_eq_true.mp hRx
    obtain ⟨htrans, hlab⟩ := List.mem_filter.mp htrmem
    have hlab' : tr.2.1 = a := by simpa using hlab
    obtain ⟨B', hB'⟩ := buildTR_all_some res.encodings_dict res.nonprimed_to_primed_dict
      actionEnc auto.tau_label auto.transitions _ _ hTR tr htrans
    obtain ⟨eS, lb, eT, hS, hL, hT, hB'eq⟩ := transBdd_destruct res.encodings_dict
      res.nonprimed_to_primed_dict actionEnc auto.tau_label tr B' hB'
    have hlbact : lb = actBdd := by
      rw [hlab'] at hL
      rw [hact] at hL
      exact ((Option.some.injEq _ _).mp hL).symm
    rw [hB'] at htreval
    rw [hB'eq] at htreval
    simp only [Option.getD_some] at htreval
    rw [Bf.eval_and, Bf.eval_and] at htreval
    simp only [Bool.and_eq_true] at htreval
    obtain ⟨⟨heS, -⟩, heT⟩ := htreval
    obtain ⟨i1, hi1, hg1, hchar1⟩ := hchar tr.1 eS hS
    obtain ⟨i2, hi2, hg2, hchar2⟩ := hchar tr.2.2 eT hT
    have hsrc : tr.1 = s := by
      have hbits1 := (hchar1 x₀).mp heS
      have hieq : i1 = i_s := by
        apply testBit_high_eq i1 i_s k (hik i1 hi1) (hik i_s hi_s)
        intro j hj
        rw [← hbits1 j hj, hxv j hj]
      rw [← hg1, ← hg_s]
      congr 1
      exact Fin.ext hieq
    have htgt : tr.2.2 = t := by
      rw [Bf.eval_rename] at heT
      have hbits2 := (hchar2 _).mp heT
      have hieq : i2 = i_t := by
        apply testBit_high_eq i2 i_t k (hik i2 hi2) (hik i_t hi_t)
        intro j hj
        have := hbits2 j hj
        rw [Bf.renameFn_eq_of_lookup _ _ _ (hlook_np2p j hj)] at this
        rw [← this, hxp j hj]
      rw [← hg2, ← hg_t]
      congr 1
      exact Fin.ext hieq
    have htreq : tr = (s, a, t) := by
      obtain ⟨t1, t2, t3⟩ := tr
      simp only at hsrc hlab' htgt
      rw [hsrc, hlab', htgt]
    rw [← htreq]
    exact htrans
  · -- membership implies containment
    intro hmem x hMx
    rw [hpart1 x]
    apply List.any_eq_true.mpr
    refine ⟨(s, a, t), List.mem_filter.mpr ⟨hmem, by simp⟩, ?_⟩
    rw [htb]
    simpa using hMx

/-- A concrete two-state automaton (as produced by `read_automaton` with
alphabet `["go", "stop"]`), used by the witness below. -/
def autoA : Automaton :=
  { name := "A", known_actions := ["tau", "go"], states := ["s0", "s1"],
    init_state := "s0", transitions := [("s0", "go", "s1"), ("s1", "tau", "s0")],
    tau_label := "tau" }

/-- Concrete shared action encodings (shape of
`encode_list_of_labels ["go", "stop"] mgr "act"`). -/
def actEncA : List (String × Bf) :=
  [("go", Bf.tt.and (Bf.var "act0").not), ("stop", Bf.tt.and (Bf.var "act0"))]

/-- The concrete result of `autoA.encode_model` (checked by `decide`). -/
def eaA : AutomatonEncoded :=
  { name := "A", known_actions := ["tau", "go"], states := ["s0", "s1"],
    init_state := "s0", transitions := [("s0", "go", "s1"), ("s1", "tau", "s0")],
    tau_label := "tau",
    state_bdd_vars := ["Astate0"],
    state_bdd_vars_nonprimed_to_primed_dict :=
      [("Astate0", "primedAstate0"), ("primedAstate0", "Astate0")],
    state_to_nonprimed_bdd_encoding :=
      [("s0", Bf.tt.and (Bf.var "Astate0").not), ("s1", Bf.tt.and (Bf.var "Astate0"))],
    action_bdd_vars := ["act0"],
    action_to_bdd_encoding := actEncA,
    init_state_bdd := Bf.tt.and (Bf.var "Astate0").not,
    identity := (Bf.ff.or ((Bf.tt.and (Bf.var "Astate0").not).and
        (Bf.tt.and (Bf.var "primedAstate0").not))).or
      ((Bf.tt.and (Bf.var "Astate0")).and (Bf.tt.and (Bf.var "primedAstate0"))),
    transition_relation :=
      [("tau", Bf.ff.or (((Bf.tt.and (Bf.var "Astate0")).and Bf.tt).and
          (Bf.tt.and (Bf.var "primedAstate0").not))),
       ("go", Bf.ff.or (((Bf.tt.and (Bf.var "Astate0").not).and
          (Bf.tt.and (Bf.var "act0").not)).and (Bf.tt.and (Bf.var "primedAstate0"))))] }

/-- The `"go"` entry of `eaA.transition_relation`. -/
def RgoA : Bf := Bf.ff.or (((Bf.tt.and (Bf.var "Astate0").not).and
  (Bf.tt.and (Bf.var "act0").not)).and (Bf.tt.and (Bf.var "primedAstate0")))

/-- Witness for `automaton_transition_relation_correct`. -/
theorem automaton_transition_relation_correct_witness :
    autoA.encode_model [] ["act0"] actEncA = some (["Astate0", "primedAstate0"], eaA) ∧
    autoA.states.Nodup ∧ 2 ≤ autoA.states.length ∧
    (eaA.state_bdd_vars ++ eaA.state_bdd_vars.map (fun w => "primed" ++ w)).Nodup ∧
    "go" ∈ autoA.known_actions ∧
    dictLookup "go" eaA.transition_relation = some RgoA ∧
    labelBddOf actEncA autoA.tau_label "go" = some (Bf.tt.and (Bf.var "act0").not) ∧
    (∃ xa, (Bf.tt.and (Bf.var "act0").not).eval xa = true) ∧
    (∀ v ∈ (Bf.tt.and (Bf.var "act0").not).supp, v ∉ eaA.state_bdd_vars ∧
        v ∉ eaA.state_bdd_vars.map (fun w => "primed" ++ w)) ∧
    dictLookup "s0" eaA.state_to_nonprimed_bdd_encoding
      = some (Bf.tt.and (Bf.var "Astate0").not) ∧
    dictLookup "s1" eaA.state_to_nonprimed_bdd_encoding
      = some (Bf.tt.and (Bf.var "Astate0")) ∧
    ((∀ x, RgoA.eval x = (autoA.transitions.filter (fun tr => tr.2.1 = "go")).any
        (fun tr => ((transBdd eaA.state_to_nonprimed_bdd_encoding
            eaA.state_bdd_vars_nonprimed_to_primed_dict actEncA autoA.tau_label tr).getD
          Bf.ff).eval x)) ∧
     ((∀ x, (((Bf.tt.and (Bf.var "Astate0").not).and (Bf.tt.and (Bf.var "act0").not)).and
          ((Bf.tt.and (Bf.var "Astate0")).rename
            eaA.state_bdd_vars_nonprimed_to_primed_dict)).eval x = true →
          RgoA.eval x = true) ↔ ("s0", "go", "s1") ∈ autoA.transitions)) :=
  ⟨by decide, by decide, by decide, by decide, by decide, by decide, by decide,
    ⟨fun _ => false, rfl⟩, by decide, by decide, by decide,
    automaton_transition_relation_correct autoA [] ["act0"] actEncA
      ["Astate0", "primedAstate0"] eaA (by decide) (by decide) (by decide) (by decide)
      "go" (by decide) RgoA (by decide) (Bf.tt.and (Bf.var "act0").not) (by decide)
      ⟨fun _ => false, rfl⟩ (by decide) "s0" "s1"
      (Bf.tt.and (Bf.var "Astate0").not) (Bf.tt.and (Bf.var "Astate0"))
      (by decide) (by decide)⟩

/-!
## The `Network` class (source lines 203-342)
-/

/-- The state of a `Network` object with the global BDD artifacts that
`compute_reachable_space` reads (the fields `encode_model` was supposed to
populate; see `network_encode_model_never_returns`). -/
structure Network where
  name : String
  automata : List AutomatonEncoded
  actions : List String
  state_bdd_vars : List String
  state_bdd_vars_nonprimed_to_primed_dict : List (String × String)
  action_bdd_vars : List String
  action_to_bdd_encoding : List (String × Bf)
  init_state_bdd : Bf
  transition_relation : Bf
deriving DecidableEq, Repr

/-- One image step of the fixpoint loop of `Network.compute_reachable_space`
(source lines 329-332): existentially quantify `reach ∧ R_global` over the
unprimed state variables and the action variables, then rename the primed
result back to unprimed variables with the (two-way) variable map. -/
def Network.reach_step (net : Network) (reach : Bf) : Bf :=
  ((reach.and net.transition_relation).exq
      (net.state_bdd_vars ++ net.action_bdd_vars)).rename
    net.state_bdd_vars_nonprimed_to_primed_dict

/-- The loop state after `n` iterations of the while loop (source lines
320-340), threading `self` through each iteration: component 1 is `self`
(never written by the loop), component 2 is `reachable_states_bdd`. -/
def reachLoopAux (net : Network) : Nat → Network × Bf
  | 0 => (net, net.init_state_bdd)
  | n + 1 =>
      let p := reachLoopAux net n
      (p.1, p.2.or (Network.reach_step p.1 p.2))

/-- `reachable_states_bdd` after `n` iterations of the loop. -/
def reachIter (net : Network) (n : Nat) : Bf := (reachLoopAux net n).2

theorem reachLoopAux_fst (net : Network) (n : Nat) : (reachLoopAux net n).1 = net := by
  induction n with
  | zero => rfl
  | succ n ih => simp [reachLoopAux, ih]

theorem reachIter_succ (net : Network) (n : Nat) :
    reachIter net (n + 1)
      = (reachIter net n).or (net.reach_step (reachIter net n)) := by
  unfold reachIter
  rw [show reachLoopAux net (n + 1)
      = ((reachLoopAux net n).1,
        (reachLoopAux net n).2.or
          (Network.reach_step (reachLoopAux net n).1 (reachLoopAux net n).2)) from rfl]
  rw [reachLoopAux_fst]

/-- The fixpoint loop terminates: the satisfying sets of the iterates over
the relevant finite variable universe grow strictly until two consecutive
iterates are semantically equal (i.e., are the same BDD node). -/
theorem reachIter_stabilizes (net : Network) :
    ∃ n, Bf.equivB (reachIter net (n + 1)) (reachIter net n) = true := by
  by_contra hnot
  push_neg at hnot
  have hfalse : ∀ n, Bf.equivB (reachIter net (n + 1)) (reachIter net n) = false :=
    fun n => Bool.eq_false_iff.mpr (hnot n)
  set m := net.state_bdd_vars_nonprimed_to_primed_dict with hm
  set V := net.init_state_bdd.supp ∪ net.transition_relation.supp ∪
    (m.map Prod.snd).toFinset with hV
  have hVclosed : ∀ v ∈ V, Bf.renameFn m v ∈ V := by
    intro v hv
    rcases Bf.renameFn_mem m v with hmem | hfix
    · rw [hV]
      simp only [Finset.mem_union, List.mem_toFinset]
      exact Or.inr hmem
    · rwa [hfix]
  have hsupp : ∀ n, (reachIter net n).supp ⊆ V := by
    intro n
    induction n with
    | zero =>
        rw [show reachIter net 0 = net.init_state_bdd from rfl, hV]
        intro v hv
        simp [hv]
    | succ n ih =>
        rw [reachIter_succ]
        rw [Bf.supp_or]
        apply Finset.union_subset ih
        unfold Network.reach_step
        apply (Bf.supp_rename _ _).trans
        intro v hv
        obtain ⟨w, hw, hweq⟩ := Finset.mem_image.mp hv
        have hwV : w ∈ V := by
          have := (Bf.supp_exq _ _) hw
          rw [Bf.supp_and] at this
          rcases Finset.mem_union.mp this with h1 | h2
          · exact ih h1
          · rw [hV]
            simp only [Finset.mem_union]
            exact Or.inl (Or.inr h2)
        rw [← hweq]
        exact hVclosed w hwV
  have hmono : ∀ n, Bf.satSet V (reachIter net n) ⊆ Bf.satSet V (reachIter net (n + 1)) := by
    intro n s hs
    rw [reachIter_succ]
    simp only [Bf.satSet, Finset.mem_filter] at hs ⊢
    refine ⟨hs.1, ?_⟩
    unfold Bf.evalSet at hs ⊢
    rw [Bf.eval_or, hs.2]
    rfl
  have hne : ∀ n, Bf.satSet V (reachIter net n) ≠ Bf.satSet V (reachIter net (n + 1)) := by
    intro n heq
    have heval : ∀ a, (reachIter net n).eval a = (reachIter net (n + 1)).eval a :=
      (Bf.satSet_eq_iff _ _ V (hsupp n) (hsupp (n + 1))).mp heq
    have htrue : Bf.equivB (reachIter net (n + 1)) (reachIter net n) = true :=
      (Bf.equivB_iff _ _).mpr (fun a => (heval a).symm)
    rw [hfalse n] at htrue
    exact Bool.false_ne_true htrue
  have hcard : ∀ n, n ≤ (Bf.satSet V (reachIter net n)).card := by
    intro n
    induction n with
    | zero => exact Nat.zero_le _
    | succ n ih =>
        have hss : Bf.satSet V (reachIter net n) ⊂ Bf.satSet V (reachIter net (n + 1)) :=
          Finset.ssubset_iff_subset_ne.mpr ⟨hmono n, hne n⟩
        have := Finset.card_lt_card hss
        omega
  have hbound : (Bf.satSet V (reachIter net (V.powerset.card + 1))).card
      ≤ V.powerset.card :=
    Finset.card_le_card (Finset.filter_subset _ _)
  have := hcard (V.powerset.card + 1)
  omega

/-- `Network.compute_reachable_space` (source lines 315-342), as the state
after the first iteration at which the loop guard
`reachable_states_bdd != prev_bdd` fails (BDD-node equality is semantic
equivalence, `Bf.equivB`); together with the threaded, unmodified `self`. -/
def Network.compute_reachable_space_st (net : Network) : Network × Bf :=
  reachLoopAux net (Nat.find (reachIter_stabilizes net))

/-- The BDD of reachable states returned by
`Network.compute_reachable_space`. -/
def Network.compute_reachable_space (net : Network) : Bf :=
  net.compute_reachable_space_st.2

/-- C3: the fixpoint loop of `Network.compute_reachable_space` terminates
after finitely many iterations — there is an iteration after which the
guard `reachable_states_bdd != prev_bdd` fails — so the function (defined
on encoded networks via `Nat.find`) is total. -/
theorem compute_reachable_space_terminates (net : Network) :
    ∃ n, Bf.equivB (reachIter net (n + 1)) (reachIter net n) = true :=
  reachIter_stabilizes net

/-- C2: upon termination of `Network.compute_reachable_space`, the image of
the returned set `reach` under the transition relation — the existential
quantification of `reach ∧ R_global` over the unprimed state and action
variables, renamed back to unprimed variables — implies `reach` (stated as
the Boolean absorption `image || reach = reach` under every assignment). -/
theorem compute_reachable_space_fixpoint (net : Network) (a : String → Bool) :
    ((net.reach_step net.compute_reachable_space).eval a
        || net.compute_reachable_space.eval a)
      = net.compute_reachable_space.eval a := by
  have hstab := Nat.find_spec (reachIter_stabilizes net)
  have hev : ∀ b, (reachIter net (Nat.find (reachIter_stabilizes net) + 1)).eval b
      = (reachIter net (Nat.find (reachIter_stabilizes net))).eval b :=
    (Bf.equivB_iff _ _).mp hstab
  have hCS : net.compute_reachable_space
      = reachIter net (Nat.find (reachIter_stabilizes net)) := rfl
  rw [hCS]
  cases hx : (net.reach_step (reachIter net (Nat.find (reachIter_stabilizes net)))).eval a
  with
  | false => simp
  | true =>
      have h1 := hev a
      rw [reachIter_succ, Bf.eval_or, hx] at h1
      simp only [Bool.or_true] at h1
      rw [← h1]
      simp

/-- C9: `Network.compute_reachable_space` mutates no encoded entity — the
`self` threaded through the translated loop comes back unchanged, so the
network's global BDD artifacts and every component automaton's artifacts
equal their values before the call. -/
theorem compute_reachable_space_preserves_network (net : Network) :
    net.compute_reachable_space_st.1 = net ∧
    net.compute_reachable_space_st.1.init_state_bdd = net.init_state_bdd ∧
    net.compute_reachable_space_st.1.transition_relation = net.transition_relation ∧
    net.compute_reachable_space_st.1.state_bdd_vars = net.state_bdd_vars ∧
    net.compute_reachable_space_st.1.action_bdd_vars = net.action_bdd_vars ∧
    net.compute_reachable_space_st.1.state_bdd_vars_nonprimed_to_primed_dict
      = net.state_bdd_vars_nonprimed_to_primed_dict ∧
    net.compute_reachable_space_st.1.automata = net.automata := by
  have h : net.compute_reachable_space_st.1 = net := reachLoopAux_fst net _
  exact ⟨h, by rw [h], by rw [h], by rw [h], by rw [h], by rw [h], by rw [h]⟩

/-- Outcome of running a Python method: normal return, an uncaught
exception, or process termination via `sys.exit()`. -/
inductive PyOutcome (α : Type) where
  | ok : α → PyOutcome α
  | raised : PyOutcome α
  | exited : PyOutcome α
deriving DecidableEq

/-- Whether the method returned normally. -/
def PyOutcome.isOk {α : Type} : PyOutcome α → Bool
  | .ok _ => true
  | .raised => false
  | .exited => false

/-- `Network.encode_model` (source lines 222-313).  The method first calls
each component's `encode_model`, conjoining the initial-state BDDs and
collecting the state variables and the two-way variable map (lines
228-233).  It then enters the leftover debug block (lines 237-261): it
conjoins the `'c'` entries of the transition relations of the automata
that know the hard-coded action `'c'`, existentially quantifies the result
two ways, renames with the reversed variable map, prints the outcomes —
and unconditionally calls `sys.exit()` at line 261, so the global
transition-relation construction (lines 265-313) is unreachable and the
method never returns normally.  The print-only computations are kept as
discarded bindings. -/
def Network.encode_model (automata : List Automaton) (mgr : List String)
    (action_bdd_vars : List String) (action_to_bdd_encoding : List (String × Bf)) :
    PyOutcome Network :=
  match automata.foldlM
      (fun (acc : List String × List AutomatonEncoded × Bf × List String ×
          List (String × String)) auto => do
        let (mgrCur, eas, initB, svars, np2p) := acc
        let (mgrNext, ea) ← auto.encode_model mgrCur action_bdd_vars action_to_bdd_encoding
        some (mgrNext, eas ++ [ea], initB.and ea.init_state_bdd,
          svars ++ ea.state_bdd_vars,
          ea.state_bdd_vars_nonprimed_to_primed_dict.foldl
            (fun (d : List (String × String)) (kv : String × String) =>
              dictInsert kv.1 kv.2 d) np2p))
      (mgr, [], Bf.tt, [], []) with
  | none => PyOutcome.raised
  | some (_, eas, _, svars, np2p) =>
      let sync_automata := eas.filter
        (fun (ea : AutomatonEncoded) => "c" ∈ ea.known_actions)
      match sync_automata.foldlM
          (fun (acc : Bf) (ea : AutomatonEncoded) =>
            (dictLookup "c" ea.transition_relation).map (fun b => acc.and b))
          Bf.tt with
      | none => PyOutcome.raised
      | some sync_transitions =>
          -- lines 243-259: diagnostic BDDs, only printed
          let nonprimed_names := svars ++ action_bdd_vars
          let primed_names := np2p.map Prod.snd ++ action_bdd_vars
          let _sources := sync_transitions.exq primed_names
          let targetsprimed := sync_transitions.exq nonprimed_names
          let reverseDict := np2p.foldl
            (fun (d : List (String × String)) (kv : String × String) =>
              dictInsert kv.2 kv.1 d) []
          let _targets := targetsprimed.rename reverseDict
          -- line 261: sys.exit()
          PyOutcome.exited

/-- C1: FALSE for the code as written.  `Network.encode_model` never
completes normally: after encoding the components it unconditionally hits
the `sys.exit()` left at the end of the debug block (source line 261), so
the claimed global transition relation is never built.  (An earlier
uncaught exception in a component's `encode_model` yields `raised`;
otherwise the outcome is `exited`.) -/
theorem network_encode_model_never_returns (automata : List Automaton)
    (mgr : List String) (action_bdd_vars : List String)
    (action_to_bdd_encoding : List (String × Bf)) :
    (Network.encode_model automata mgr action_bdd_vars action_to_bdd_encoding).isOk
      = false := by
  unfold Network.encode_model
  split
  · rfl
  · simp only []
    split
    · rfl
    · rfl
